import Mathlib

/-!
Verification of the mini_nginx HTTP relay engine and upstream connection pool.

The Rust sources (src/handler.rs, src/pool.rs) are shallowly embedded below.
Bytes are modelled as `Char` (the relevant traffic is ASCII, on which
`String::from_utf8_lossy` is the identity), the upstream byte stream as a list
of read results (`Chunks`): each element is the block returned by one
`read(&mut temp)` call, the end of the list (or an empty block) is a read
returning 0, i.e. EOF.  Loops become structural recursion on the chunk list
where every iteration consumes a read, and fuel-indexed recursion otherwise.
-/

namespace MiniNginx

/-- A byte of network traffic (ASCII). -/
abbrev Byte := Char

/-- A byte string. -/
abbrev Bytes := List Char

/-- The sequence of blocks successive `read` calls return; list end = EOF. -/
abbrev Chunks := List Bytes

/-- `std::io::Error` as used by handler.rs: an `ErrorKind` plus message. -/
inductive IoErr where
  | unexpectedEof (msg : String)
  | invalidData (msg : String)
  deriving DecidableEq, Repr

instance instDecEqExcept {ε α : Type} [DecidableEq ε] [DecidableEq α] :
    DecidableEq (Except ε α) := fun a b =>
  match a, b with
  | .error x, .error y =>
    if h : x = y then .isTrue (congrArg Except.error h)
    else .isFalse fun he => h (Except.error.inj he)
  | .ok x, .ok y =>
    if h : x = y then .isTrue (congrArg Except.ok h)
    else .isFalse fun he => h (Except.ok.inj he)
  | .error _, .ok _ => .isFalse fun he => Except.noConfusion he
  | .ok _, .error _ => .isFalse fun he => Except.noConfusion he

/-- One `upstream.read(&mut temp)`: `none` means the read returned 0 (EOF). -/
def readStep : Chunks → Option (Bytes × Chunks)
  | [] => none
  | c :: rest => if c = [] then none else some (c, rest)

/-- First index at which `pat` occurs in `l`
(`l.windows(pat.len()).position(|w| w == pat)` in handler.rs). -/
def findSeq (pat : Bytes) : Bytes → Option Nat
  | [] => if pat = [] then some 0 else none
  | c :: cs =>
    if pat.isPrefixOf (c :: cs) then some 0
    else (findSeq pat cs).map (· + 1)

/-- The CRLF line terminator. -/
def crlf : Bytes := ['\r', '\n']

/-- The header / trailer terminator `\r\n\r\n`. -/
def crlf2 : Bytes := ['\r', '\n', '\r', '\n']

example : findSeq crlf ('a' :: 'b' :: crlf ++ ['c']) = some 2 := by decide

example : findSeq crlf2 ('a' :: crlf) = none := by decide

/-- Rust `char::is_whitespace` restricted to the ASCII range that can occur
in HTTP header bytes (agrees with Lean's `Char.isWhitespace` there). -/
def isWsp (c : Char) : Bool := c = ' ' ∨ c = '\t' ∨ c = '\r' ∨ c = '\n'

/-- Worker for `words`: `cur` is the reversed token being accumulated. -/
def wordsGo : Bytes → Bytes → List Bytes
  | [], cur => if cur = [] then [] else [cur.reverse]
  | c :: cs, cur =>
    if isWsp c then
      if cur = [] then wordsGo cs [] else cur.reverse :: wordsGo cs []
    else wordsGo cs (c :: cur)

/-- Rust `str::split_whitespace` (as a list of tokens; empty tokens never occur). -/
def words (l : Bytes) : List Bytes := wordsGo l []

example : words "GET /a/b HTTP/1.1".toList = ["GET".toList, "/a/b".toList, "HTTP/1.1".toList] := by
  decide

example : words "  a   b ".toList = ["a".toList, "b".toList] := by decide

/-- Split at every `'\n'` (the segments of Rust `str::split('\n')`). -/
def splitNl : Bytes → List Bytes
  | [] => [[]]
  | c :: cs =>
    if c = '\n' then [] :: splitNl cs
    else
      match splitNl cs with
      | [] => [[c]]
      | s :: ss => (c :: s) :: ss

/-- Strip one trailing `'\r'`, as Rust `str::lines` does per line. -/
def stripCr (l : Bytes) : Bytes :=
  if l.getLast? = some '\r' then l.dropLast else l

/-- Rust `str::lines`: split at `'\n'`, drop the segment after a final `'\n'`,
strip one trailing `'\r'` from each line. -/
def linesOf (l : Bytes) : List Bytes :=
  let segs := splitNl l
  let segs := if l.getLast? = some '\n' ∨ l = [] then segs.dropLast else segs
  segs.map stripCr

example : linesOf "a\r\nbc\r\n\r\n".toList = ["a".toList, "bc".toList, [] ] := by decide

example : linesOf [] = [] := by decide

example : linesOf "ab".toList = ["ab".toList] := by decide

/-- Rust `str::trim` (whitespace at both ends). -/
def trimWs (l : Bytes) : Bytes :=
  (l.dropWhile isWsp).reverse.dropWhile isWsp |>.reverse

/-- Rust `str::to_ascii_lowercase`. -/
def lowerAscii (l : Bytes) : Bytes :=
  l.map fun c => if 'A' ≤ c ∧ c ≤ 'Z' then Char.ofNat (c.toNat + 32) else c

/-- Rust `str::contains(sub)` (substring containment). -/
def containsSub (sub : Bytes) : Bytes → Bool
  | [] => sub = []
  | c :: cs => sub.isPrefixOf (c :: cs) || containsSub sub cs

example : containsSub "close".toList (lowerAscii " Keep-Alive, CLOSE".toList) = true := by decide

/-- Rust `str::split_once(':')`: split at the first colon, excluding it. -/
def splitOnceColon : Bytes → Option (Bytes × Bytes)
  | [] => none
  | c :: cs =>
    if c = ':' then some ([], cs)
    else (splitOnceColon cs).map fun p => (c :: p.1, p.2)

example : splitOnceColon "Host: a:b".toList = some ("Host".toList, " a:b".toList) := by decide

/-- Rust `usize::from_str::<usize>` on an already-trimmed string: an optional
leading `'+'` followed by one or more decimal digits. -/
def parseUsize (l : Bytes) : Option Nat :=
  let l := match l with
    | '+' :: rest => rest
    | _ => l
  if l = [] ∨ ¬ l.all (·.isDigit) then none
  else some (l.foldl (fun n c => n * 10 + (c.toNat - 48)) 0)

example : parseUsize "042".toList = some 42 := by decide

example : parseUsize "4x".toList = none := by decide

/-- Hex digit value, if any. -/
def hexVal (c : Char) : Option Nat :=
  if '0' ≤ c ∧ c ≤ '9' then some (c.toNat - 48)
  else if 'a' ≤ c ∧ c ≤ 'f' then some (c.toNat - 87)
  else if 'A' ≤ c ∧ c ≤ 'F' then some (c.toNat - 55)
  else none

/-- Rust `usize::from_str_radix(s, 16)` on an already-trimmed string. -/
def parseHex (l : Bytes) : Option Nat :=
  let l := match l with
    | '+' :: rest => rest
    | _ => l
  if l = [] ∨ ¬ l.all (fun c => (hexVal c).isSome) then none
  else some (l.foldl (fun n c => n * 16 + (hexVal c).getD 0) 0)

example : parseHex "1A".toList = some 26 := by decide

/-- Rust `str::replacen(pat, rep, 1)`: replace the first occurrence of `pat`
(matching the empty pattern at the front, as Rust does). -/
def replaceFirst (pat rep : Bytes) : Bytes → Bytes
  | [] => if pat = [] then rep else []
  | c :: cs =>
    if pat.isPrefixOf (c :: cs) then rep ++ (c :: cs).drop pat.length
    else c :: replaceFirst pat rep cs

example : replaceFirst "/api".toList "/".toList "/api/api/x".toList = "//api/x".toList := by decide

example : replaceFirst [] "/".toList "abc".toList = "/abc".toList := by decide

/-! ## handler.rs -/

/-- `ResponseInfo` (handler.rs:187-191). -/
structure ResponseInfo where
  keep_alive : Bool
  content_length : Option Nat
  chunked : Bool
  deriving DecidableEq, Repr

/-- `ResponseHead` (handler.rs:194-198). -/
structure ResponseHead where
  header : Bytes
  body_prefix : Bytes
  info : ResponseInfo
  deriving DecidableEq, Repr

/-- `find_header_end` (handler.rs:230-232): index just past the first `\r\n\r\n`. -/
def find_header_end (buf : Bytes) : Option Nat :=
  (findSeq crlf2 buf).map (· + 4)

/-- `rewrite_request_line` (handler.rs:201-228). -/
def rewrite_request_line (request_bytes : Bytes) (route : Bytes) : Bytes :=
  match findSeq crlf request_bytes with
  | none => request_bytes
  | some line_end =>
    let line := request_bytes.take line_end
    let parts := words line
    let method := parts.getD 0 []
    let path := parts.getD 1 []
    let version := parts.getD 2 []
    if method = [] ∨ version = [] then request_bytes
    else
      let new_path := if route.isPrefixOf path then replaceFirst route ['/'] path else path
      let new_line := method ++ [' '] ++ new_path ++ [' '] ++ version
      new_line ++ request_bytes.drop line_end

example :
    rewrite_request_line "GET /api/x HTTP/1.1\r\nHost: h\r\n\r\n".toList "/api".toList
      = "GET //x HTTP/1.1\r\nHost: h\r\n\r\n".toList := by decide

/-- The header-scanning fold of `parse_response_info` (handler.rs:287-302):
state is the last `Connection` value seen, the last `Content-Length` parse and
the `chunked` flag. -/
def scanHeaders : List Bytes → Option Bytes → Option Nat → Bool →
    Option Bytes × Option Nat × Bool
  | [], conn, cl, ch => (conn, cl, ch)
  | line :: rest, conn, cl, ch =>
    match splitOnceColon line with
    | none => scanHeaders rest conn cl ch
    | some (k, v) =>
      let key := lowerAscii (trimWs k)
      let value := lowerAscii (trimWs v)
      if key = "connection".toList then scanHeaders rest (some value) cl ch
      else if key = "content-length".toList then scanHeaders rest conn (parseUsize value) ch
      else if key = "transfer-encoding".toList then
        scanHeaders rest conn cl (containsSub "chunked".toList value || ch)
      else scanHeaders rest conn cl ch

/-- `parse_response_info` (handler.rs:278-315). -/
def parse_response_info (header : Bytes) : ResponseInfo :=
  let ls := linesOf header
  let status_line := ls.headD []
  let is_http10 := "HTTP/1.0".toList.isPrefixOf status_line
  let (connection, content_length, chunked) := scanHeaders ls.tail none none false
  let keep_alive :=
    if is_http10 then
      (connection.map (containsSub "keep-alive".toList)).getD false
    else
      ! (connection.map (containsSub "close".toList)).getD false
  { keep_alive := keep_alive, content_length := content_length, chunked := chunked }

example :
    parse_response_info "HTTP/1.1 200 OK\r\nConnection: close\r\n\r\n".toList
      = { keep_alive := false, content_length := none, chunked := false } := by decide

example :
    parse_response_info
        "HTTP/1.0 200 OK\r\nConnection: Keep-Alive\r\nTransfer-Encoding: Chunked\r\n\r\n".toList
      = { keep_alive := true, content_length := none, chunked := true } := by decide

example :
    parse_response_info "HTTP/1.1 200 OK\r\nContent-Length: 5\r\n\r\n".toList
      = { keep_alive := true, content_length := some 5, chunked := false } := by decide

/-- `read_response_head` (handler.rs:251-275), recursion over the reads the
upstream will serve; `buffer` is the accumulator (initially `[]`). -/
def read_response_head (chunks : Chunks) (buffer : Bytes) : Except IoErr ResponseHead :=
  match chunks with
  | [] => .error (.unexpectedEof "upstream closed")
  | c :: rest =>
    if c = [] then .error (.unexpectedEof "upstream closed")
    else
      let buffer := buffer ++ c
      if buffer.length > 32768 then .error (.invalidData "header too large")
      else
        match find_header_end buffer with
        | some e =>
          .ok { header := buffer.take e, body_prefix := buffer.drop e
                info := parse_response_info (buffer.take e) }
        | none => read_response_head rest buffer

example :
    read_response_head ["HTTP/1.1 200 OK\r\n\r\nab".toList] []
      = .ok { header := "HTTP/1.1 200 OK\r\n\r\n".toList, body_prefix := "ab".toList
              info := { keep_alive := true, content_length := none, chunked := false } } := by
  decide

/-- `parse_chunk_size` (handler.rs:418-426). -/
def parse_chunk_size (line : Bytes) : Except IoErr Nat :=
  let endPos := (line.findIdx? (· = ';')).getD line.length
  match parseHex (trimWs (line.take endPos)) with
  | some n => .ok n
  | none => .error (.invalidData "invalid chunk size")

example : parse_chunk_size "1a;ext=1".toList = .ok 26 := by decide

example : parse_chunk_size "zz".toList = .error (.invalidData "invalid chunk size") := by decide

/-- The `while remaining > 0` loop of `relay_content_length` (handler.rs:326-334);
returns the relay result and the bytes written to the client. -/
def rclLoop : Chunks → Nat → Bytes → Except IoErr Unit × Bytes
  | _, 0, client => (.ok (), client)
  | [], _ + 1, client => (.ok (), client)
  | c :: rest, r + 1, client =>
    if c = [] then (.ok (), client)
    else
      let to_write := min c.length (r + 1)
      rclLoop rest (r + 1 - to_write) (client ++ c.take to_write)

/-- `relay_content_length` (handler.rs:318-336). -/
def relay_content_length (chunks : Chunks) (content_length already_sent : Nat) :
    Except IoErr Unit × Bytes :=
  rclLoop chunks (content_length - already_sent) []

/-- The client-visible response body in the content-length branch of
`handle_reverse_proxy` (handler.rs:101-113): the captured `body_prefix` is
written first, then `relay_content_length` runs with
`already_sent = body_prefix.len()`. -/
def content_length_body ( body_prefix : Bytes) (chunks : Chunks) (content_length : Nat) :
    Bytes :=
  body_prefix ++ (relay_content_length chunks content_length body_prefix.length).2

example : content_length_body "he".toList ["l".toList, "lo".toList, "XX".toList] 5
    = "hello".toList := by decide

/-- What a `relay_chunked` run leaves behind: the relay result, every byte
written to the client, and the reads not yet consumed from the upstream. -/
structure RelayOut where
  result : Except IoErr Unit
  client : Bytes
  rest : Chunks
  deriving DecidableEq, Repr

/-- The `while buffer.len() < needed` fill loop of `relay_chunked`
(handler.rs:405-412): reads are appended to `buffer` and forwarded to the
client at once; EOF mid-chunk is `UnexpectedEof`. Returns `none` on success
(buffer filled) with the new state, or the failing `RelayOut`. -/
def fillTo (needed : Nat) : Chunks → Bytes → Bytes → RelayOut ⊕ (Chunks × Bytes × Bytes)
  | [], buffer, client =>
    if buffer.length < needed then
      .inl { result := .error (.unexpectedEof "chunked eof"), client := client, rest := [] }
    else .inr ([], buffer, client)
  | c :: rest, buffer, client =>
    if buffer.length < needed then
      if c = [] then
        .inl { result := .error (.unexpectedEof "chunked eof"), client := client
               rest := c :: rest }
      else fillTo needed rest (buffer ++ c) (client ++ c)
    else .inr (c :: rest, buffer, client)

/-- The trailer loop of `relay_chunked` after the zero-size chunk
(handler.rs:387-401): keep reading (and eagerly forwarding) until
`\r\n\r\n` occurs at or after `after_line`. -/
def relayTrailer (after_line : Nat) : Chunks → Bytes → Bytes → RelayOut
  | [], buffer, client =>
    if (findSeq crlf2 (buffer.drop after_line)).isSome then
      { result := .ok (), client := client, rest := [] }
    else { result := .error (.unexpectedEof "chunked eof"), client := client, rest := [] }
  | c :: rest, buffer, client =>
    if (findSeq crlf2 (buffer.drop after_line)).isSome then
      { result := .ok (), client := client, rest := c :: rest }
    else if c = [] then
      { result := .error (.unexpectedEof "chunked eof"), client := client, rest := c :: rest }
    else relayTrailer after_line rest (buffer ++ c) (client ++ c)

/-- The main chunk-parsing loop of `relay_chunked` (handler.rs:364-414),
fuel-indexed (each recursive step is one pass through the `loop`; `none` means
the fuel ran out, never reached by the fuel the theorems pick). -/
def relayMain : Nat → Chunks → Bytes → Bytes → Nat → Option RelayOut
  | 0, _, _, _, _ => none
  | fuel + 1, chunks, buffer, client, parse_pos =>
    match findSeq crlf (buffer.drop parse_pos) with
    | none =>
      -- size line incomplete: read more, forwarding eagerly (handler.rs:370-378)
      match chunks with
      | [] => some { result := .error (.unexpectedEof "chunked eof"), client := client
                     rest := [] }
      | c :: rest =>
        if c = [] then
          some { result := .error (.unexpectedEof "chunked eof"), client := client
                 rest := chunks }
        else relayMain fuel rest (buffer ++ c) (client ++ c) parse_pos
    | some pos =>
      let line_end := parse_pos + pos
      let size_line := (buffer.drop parse_pos).take pos
      match parse_chunk_size size_line with
      | .error e => some { result := .error e, client := client, rest := chunks }
      | .ok size =>
        let after_line := line_end + 2
        if size = 0 then some (relayTrailer after_line chunks buffer client)
        else
          let needed := after_line + size + 2
          match fillTo needed chunks buffer client with
          | .inl out => some out
          | .inr (chunks, buffer, client) => relayMain fuel chunks buffer client needed

/-- `relay_chunked` (handler.rs:352-415): the captured `body_prefix` becomes the
initial buffer and is written to the client up front. -/
def relay_chunked ( body_prefix : Bytes) (chunks : Chunks) (fuel : Nat) : Option RelayOut :=
  relayMain fuel chunks body_prefix body_prefix 0

/-- The spec's round-trip body. -/
def wikiBody : Bytes := "4\r\nWiki\r\n5\r\npedia\r\n0\r\n\r\n".toList

-- The canonical terminator is never recognised: the trailer scan starts after
-- the zero-chunk line's own CRLF, so only "\r\n" is left to search.
example : relay_chunked [] [wikiBody] 50
    = some { result := .error (.unexpectedEof "chunked eof"), client := wikiBody
             rest := [] } := by decide

-- With an explicit trailer the relay does terminate.
example : relay_chunked [] ["4\r\nWiki\r\n0\r\nX: y\r\n\r\n".toList] 50
    = some { result := .ok (), client := "4\r\nWiki\r\n0\r\nX: y\r\n\r\n".toList
             rest := [] } := by decide

/-- The file path `handle_static_file` reads (handler.rs:150-156): first request
line, second whitespace token (default `"/"`), `"/" → "index.html"`, otherwise
the path with its leading byte sliced off, glued to `root_path` with `'/'`. -/
def static_target (request : Bytes) (root_path : Bytes) : Bytes :=
  let first_line := (linesOf request).headD []
  let path := (words first_line).getD 1 "/".toList
  let filename := if path = "/".toList then "index.html".toList else path.drop 1
  root_path ++ ['/'] ++ filename

example : static_target "GET / HTTP/1.1\r\n\r\n".toList "/var/www".toList
    = "/var/www/index.html".toList := by decide

example : static_target "GET /../etc/passwd HTTP/1.1\r\n\r\n".toList "/var/www".toList
    = "/var/www/../etc/passwd".toList := by decide

/-! ## pool.rs -/

/-- `PooledConn` (pool.rs:31-34): the socket is reduced to an identity tag,
`Instant` to a `Nat` timestamp. -/
structure PooledConn where
  id : Nat
  last_used : Nat
  deriving DecidableEq, Repr

/-- A per-address `VecDeque<PooledConn>`: list head = queue front (oldest),
list end = queue back (most recently returned). -/
abbrev Queue := List PooledConn

/-- `PoolState` (pool.rs:23-28): `HashMap<String, VecDeque<PooledConn>>` as an
association list (one fixed iteration order of the real map), plus `total`. -/
structure PoolState where
  conns : List (String × Queue)
  total : Nat
  deriving DecidableEq, Repr

/-- The pool a worker starts with. -/
def emptyPool : PoolState := { conns := [], total := 0 }

/-- `HashMap::get` on the association list. -/
def lookupQ : List (String × Queue) → String → Option Queue
  | [], _ => none
  | (a, q) :: rest, addr => if a = addr then some q else lookupQ rest addr

/-- Replace the queue stored under an existing key. -/
def setQ : List (String × Queue) → String → Queue → List (String × Queue)
  | [], _, _ => []
  | (a, q) :: rest, addr, q' =>
    if a = addr then (a, q') :: rest else (a, q) :: setQ rest addr q'

/-- `HashMap::remove`. -/
def removeQ : List (String × Queue) → String → List (String × Queue)
  | [], _ => []
  | (a, q) :: rest, addr => if a = addr then rest else (a, q) :: removeQ rest addr

/-- `entry(addr).or_insert_with(VecDeque::new).push_back(c)` (pool.rs:106-113). -/
def pushBackEntry (l : List (String × Queue)) (addr : String) (c : PooledConn) :
    List (String × Queue) :=
  match lookupQ l addr with
  | some q => setQ l addr (q ++ [c])
  | none => l ++ [(addr, [c])]

/-- `VecDeque::pop_back`. -/
def popBack (q : Queue) : Option (PooledConn × Queue) :=
  match q.getLast? with
  | none => none
  | some c => some (c, q.dropLast)

/-- The critical section of one `get` loop pass (pool.rs:53-63): pop the
most-recently-returned connection for `addr` and decrement `total`
(`saturating_sub`); the map entry stays even when its queue empties. -/
def popState (s : PoolState) (addr : String) : Option (PooledConn × PoolState) :=
  (lookupQ s.conns addr).bind fun q =>
    (popBack q).map fun p =>
      (p.1, { conns := setQ s.conns addr p.2, total := s.total - 1 })

/-- Outcome of `entry.stream.peek` under `timeout` (pool.rs:81). -/
inductive Probe where
  | ok (n : Nat)
  | fail
  | timedOut
  deriving DecidableEq, Repr

/-- Does the `get` loop keep this candidate (pool.rs:74-94)? It must not have
idled past `max_idle` and its probe must report at least one byte. -/
def keepCandidate (maxIdle now : Nat) (probe : PooledConn → Probe) (c : PooledConn) : Bool :=
  (! decide (now - c.last_used > maxIdle)) &&
    match probe c with
    | .ok (_ + 1) => true
    | _ => false

/-- The `loop` of `ConnectionPool::get` (pool.rs:52-95), fuel-indexed: each
pass pops one candidate; an expired or probe-failing candidate is dropped and
the loop continues; an empty queue breaks out (`none` result = the caller
establishes a brand-new connection, pool.rs:99). -/
def poolGetAux (maxIdle now : Nat) (probe : PooledConn → Probe) :
    Nat → PoolState → String → Option PooledConn × PoolState
  | 0, s, _ => (none, s)
  | fuel + 1, s, addr =>
    match popState s addr with
    | none => (none, s)
    | some (c, s') =>
      if now - c.last_used > maxIdle then poolGetAux maxIdle now probe fuel s' addr
      else
        match probe c with
        | .ok 0 => poolGetAux maxIdle now probe fuel s' addr
        | .ok (_ + 1) => (some c, s')
        | .fail => poolGetAux maxIdle now probe fuel s' addr
        | .timedOut => poolGetAux maxIdle now probe fuel s' addr

/-- `ConnectionPool::get` (pool.rs:51-100).  The loop pops at most the length
of the address's queue, so that length (plus one) is enough fuel. -/
def poolGet (maxIdle now : Nat) (probe : PooledConn → Probe) (s : PoolState) (addr : String) :
    Option PooledConn × PoolState :=
  poolGetAux maxIdle now probe (((lookupQ s.conns addr).getD []).length + 1) s addr

/-- One accumulator update of `evict_oldest`'s scan (pool.rs:132-135): keep the
candidate when no oldest was seen yet or when it is strictly older (strict `<`
keeps the first occurrence of the minimum). -/
def older (cand : String × Nat) : Option (String × Nat) → Option (String × Nat)
  | none => some cand
  | some (a0, t0) => if cand.2 < t0 then some cand else some (a0, t0)

/-- The scan of `evict_oldest` (pool.rs:127-137): fold `older` over every
address whose queue has a front. -/
def scanOldest : List (String × Queue) → Option (String × Nat) → Option (String × Nat)
  | [], acc => acc
  | (a, q) :: rest, acc =>
    match q with
    | [] => scanOldest rest acc
    | front :: _ => scanOldest rest (older (a, front.last_used) acc)

/-- `evict_oldest` (pool.rs:126-154): `none` = returned `false` (nothing to
evict); otherwise pop the chosen queue's front, decrement `total`
(`saturating_sub`), and drop the map entry if the queue emptied. -/
def evict_oldest (s : PoolState) : Option PoolState :=
  match scanOldest s.conns none with
  | none => none
  | some (addr, _) =>
    match lookupQ s.conns addr with
    | none => some s
    | some [] => some { s with conns := removeQ s.conns addr }
    | some (_ :: q') =>
      some { conns := if q' = [] then removeQ s.conns addr else setQ s.conns addr q'
             total := s.total - 1 }

/-- The `while state.total > self.max_size` eviction loop (pool.rs:117-121),
fuel-indexed; `recycle` passes fuel that provably suffices. -/
def evictWhile (maxSize : Nat) : Nat → PoolState → PoolState
  | 0, s => s
  | fuel + 1, s =>
    if s.total > maxSize then
      match evict_oldest s with
      | none => s
      | some s' => evictWhile maxSize fuel s'
    else s

/-- `ConnectionPool::recycle` (pool.rs:103-122): push the connection at the
tail of its address's queue stamped `now`, bump `total`, then evict while over
capacity.  Each eviction that fires lowers `total` by one, so `total` after the
push bounds the number of loop passes. -/
def recycle (maxSize : Nat) (s : PoolState) (addr : String) (connId : Nat) (now : Nat) :
    PoolState :=
  let s1 : PoolState :=
    { conns := pushBackEntry s.conns addr { id := connId, last_used := now }
      total := s.total + 1 }
  evictWhile maxSize s1.total s1

example :
    recycle 2 { conns := [("a", [⟨1, 10⟩]), ("b", [⟨2, 20⟩])], total := 2 } "c" 3 30
      = { conns := [("b", [⟨2, 20⟩]), ("c", [⟨3, 30⟩])], total := 2 } := by decide

/-- The reuse decision at the end of a proxied exchange (handler.rs:123-133):
recycle the upstream socket only when the relay succeeded and the response was
keep-alive; otherwise the state is untouched (the socket drops). -/
def finishExchange (maxSize : Nat) (s : PoolState) (addr : String) (connId : Nat) (now : Nat)
    (relay_result : Except IoErr Unit) (keep_alive : Bool) : PoolState :=
  match relay_result with
  | .ok () => if keep_alive then recycle maxSize s addr connId now else s
  | .error _ => s

/-- One pool-touching step of a worker's lifetime, for invariant claims. -/
inductive PoolOp where
  | get (addr : String) (now maxIdle : Nat) (probe : PooledConn → Probe)
  | recycle (addr : String) (connId : Nat) (now : Nat)

/-- Run one operation against the pool. -/
def applyOp (maxSize : Nat) (s : PoolState) : PoolOp → PoolState
  | .get addr now maxIdle probe => (poolGet maxIdle now probe s addr).2
  | .recycle addr connId now => recycle maxSize s addr connId now

/-- Run a sequence of operations. -/
def applyOps (maxSize : Nat) (s : PoolState) : List PoolOp → PoolState
  | [] => s
  | op :: ops => applyOps maxSize (applyOp maxSize s op) ops

/-- Sum of the per-address queue lengths. -/
def sumLens (l : List (String × Queue)) : Nat :=
  (l.map fun p => p.2.length).sum

/-- The pool invariant of the spec: `total` equals the live sum. -/
abbrev poolInv (s : PoolState) : Prop := s.total = sumLens s.conns

/-- The `HashMap` keys are pairwise distinct (true of any real `HashMap`;
the association list keeps it as an invariant). -/
abbrev keysNodup (s : PoolState) : Prop := (s.conns.map Prod.fst).Nodup

/-- Both structural invariants together. -/
abbrev poolWf (s : PoolState) : Prop := poolInv s ∧ keysNodup s

/-! ## Lemmas: association-list bookkeeping -/

@[simp] theorem sumLens_nil : sumLens [] = 0 := rfl

@[simp] theorem sumLens_cons (a : String) (q : Queue) (l : List (String × Queue)) :
    sumLens ((a, q) :: l) = q.length + sumLens l := by
  simp [sumLens]

theorem sumLens_append (l₁ l₂ : List (String × Queue)) :
    sumLens (l₁ ++ l₂) = sumLens l₁ + sumLens l₂ := by
  simp [sumLens]

@[simp] theorem lookupQ_nil (addr : String) : lookupQ [] addr = none := rfl

theorem lookupQ_cons (a : String) (q : Queue) (l : List (String × Queue)) (addr : String) :
    lookupQ ((a, q) :: l) addr = if a = addr then some q else lookupQ l addr := rfl

theorem setQ_cons (a : String) (q : Queue) (l : List (String × Queue)) (addr : String)
    (q' : Queue) :
    setQ ((a, q) :: l) addr q' =
      if a = addr then (a, q') :: l else (a, q) :: setQ l addr q' := by
  by_cases h : a = addr <;> simp [setQ, h]

theorem sumLens_setQ {l : List (String × Queue)} {addr : String} {q q' : Queue}
    (h : lookupQ l addr = some q) :
    sumLens (setQ l addr q') + q.length = sumLens l + q'.length := by
  induction l with
  | nil => simp at h
  | cons p rest ih =>
    obtain ⟨b, qb⟩ := p
    by_cases hb : b = addr
    · subst hb
      rw [lookupQ_cons] at h
      simp at h
      subst h
      simp [setQ_cons]
      omega
    · rw [lookupQ_cons, if_neg hb] at h
      rw [setQ_cons, if_neg hb, sumLens_cons, sumLens_cons]
      have := ih h
      omega

theorem keys_setQ (l : List (String × Queue)) (addr : String) (q' : Queue) :
    (setQ l addr q').map Prod.fst = l.map Prod.fst := by
  induction l with
  | nil => rfl
  | cons p rest ih =>
    obtain ⟨b, qb⟩ := p
    rw [setQ_cons]
    by_cases hb : b = addr <;> simp [hb, ih]

theorem lookupQ_eq_none_iff {l : List (String × Queue)} {addr : String} :
    lookupQ l addr = none ↔ addr ∉ l.map Prod.fst := by
  induction l with
  | nil => simp
  | cons p rest ih =>
    obtain ⟨b, qb⟩ := p
    rw [lookupQ_cons]
    by_cases hb : b = addr
    · simp [hb]
    · have hb' : addr ≠ b := fun h => hb h.symm
      simp [hb, hb', ih]

theorem sumLens_pushBackEntry (l : List (String × Queue)) (addr : String) (c : PooledConn) :
    sumLens (pushBackEntry l addr c) = sumLens l + 1 := by
  cases h : lookupQ l addr with
  | none => simp [pushBackEntry, h, sumLens_append]
  | some q =>
    have h2 := @sumLens_setQ _ _ _ (q ++ [c]) h
    simp only [pushBackEntry, h]
    simp at h2
    omega

theorem keys_pushBackEntry (l : List (String × Queue)) (addr : String) (c : PooledConn)
    (h : (l.map Prod.fst).Nodup) :
    ((pushBackEntry l addr c).map Prod.fst).Nodup := by
  cases hl : lookupQ l addr with
  | none =>
    have hni : addr ∉ l.map Prod.fst := lookupQ_eq_none_iff.mp hl
    simp [pushBackEntry, hl, List.nodup_append, h, hni]
  | some q => simp only [pushBackEntry, hl]; rw [keys_setQ]; exact h

theorem keys_removeQ (l : List (String × Queue)) (addr : String)
    (h : (l.map Prod.fst).Nodup) :
    ((removeQ l addr).map Prod.fst).Nodup := by
  induction l with
  | nil => simp [removeQ]
  | cons p rest ih =>
    obtain ⟨b, qb⟩ := p
    simp only [removeQ]
    by_cases hb : b = addr
    · simp only [if_pos hb]
      exact (List.nodup_cons.mp (by simpa using h)).2
    · simp only [if_neg hb]
      simp only [List.map_cons, List.nodup_cons] at h ⊢
      refine ⟨fun hmem => ?_, ih h.2⟩
      have : b ∈ rest.map Prod.fst := by
        clear ih h
        induction rest with
        | nil => simp [removeQ] at hmem
        | cons p2 r2 ih2 =>
          obtain ⟨b2, q2⟩ := p2
          simp only [removeQ] at hmem
          by_cases h2 : b2 = addr
          · simp only [if_pos h2] at hmem
            simp [hmem]
          · simp only [if_neg h2, List.map_cons, List.mem_cons] at hmem
            rcases hmem with h3 | h3
            · simp [h3]
            · simp [ih2 h3]
      exact h.1 this


theorem sumLens_removeQ {l : List (String × Queue)} {addr : String} {q : Queue}
    (h : lookupQ l addr = some q) :
    sumLens (removeQ l addr) + q.length = sumLens l := by
  induction l with
  | nil => simp at h
  | cons p rest ih =>
    obtain ⟨b, qb⟩ := p
    rw [lookupQ_cons] at h
    by_cases hb : b = addr
    · rw [if_pos hb] at h
      simp at h
      subst h
      simp [removeQ, hb]
      omega
    · rw [if_neg hb] at h
      simp only [removeQ, if_neg hb, sumLens_cons]
      have := ih h
      omega

theorem lookupQ_of_mem_nodup {l : List (String × Queue)} {a : String} {q : Queue}
    (hmem : (a, q) ∈ l) (hnd : (l.map Prod.fst).Nodup) : lookupQ l a = some q := by
  induction l with
  | nil => simp at hmem
  | cons p rest ih =>
    obtain ⟨b, qb⟩ := p
    simp only [List.map_cons, List.nodup_cons] at hnd
    rcases List.mem_cons.mp hmem with h | h
    · obtain ⟨h1, h2⟩ := Prod.mk.injEq .. ▸ h
      rw [lookupQ_cons, if_pos h1.symm]
      exact congrArg some h2.symm
    · have hne : b ≠ a := by
        intro hba
        subst hba
        exact hnd.1 (List.mem_map_of_mem Prod.fst h)
      rw [lookupQ_cons, if_neg hne]
      exact ih h hnd.2

theorem sumLens_pos {l : List (String × Queue)} (h : 0 < sumLens l) :
    ∃ p ∈ l, p.2 ≠ [] := by
  induction l with
  | nil => simp [sumLens] at h
  | cons p rest ih =>
    obtain ⟨b, qb⟩ := p
    rw [sumLens_cons] at h
    by_cases hq : qb = []
    · subst hq
      simp at h
      obtain ⟨p2, hp2, hne⟩ := ih h
      exact ⟨p2, List.mem_cons_of_mem _ hp2, hne⟩
    · exact ⟨(b, qb), List.mem_cons_self .., hq⟩

/-- Full characterisation of the `evict_oldest` scan (pool.rs:130-137). -/
theorem scanOldest_spec (l : List (String × Queue)) :
    ∀ acc : Option (String × Nat),
    (scanOldest l acc = none → acc = none ∧ ∀ p ∈ l, p.2 = []) ∧
    (∀ a t, scanOldest l acc = some (a, t) →
      ((acc = some (a, t)) ∨ ∃ q c, (a, q) ∈ l ∧ q.head? = some c ∧ c.last_used = t) ∧
      (∀ p ∈ l, ∀ c, p.2.head? = some c → t ≤ c.last_used) ∧
      (∀ a0 t0, acc = some (a0, t0) → t ≤ t0)) := by
  induction l with
  | nil =>
    intro acc
    constructor
    · intro h
      exact ⟨h, by simp⟩
    · intro a t h
      refine ⟨Or.inl h, by simp, ?_⟩
      intro a0 t0 h0
      rw [h0] at h
      cases h
      exact le_refl t
  | cons p rest ih =>
    intro acc
    obtain ⟨b, qb⟩ := p
    cases qb with
    | nil =>
      have hstep : scanOldest ((b, []) :: rest) acc = scanOldest rest acc := rfl
      constructor
      · intro h
        rw [hstep] at h
        obtain ⟨h1, h2⟩ := (ih acc).1 h
        refine ⟨h1, ?_⟩
        intro p hp
        rcases List.mem_cons.mp hp with h3 | h3
        · rw [h3]
        · exact h2 p h3
      · intro a t h
        rw [hstep] at h
        obtain ⟨h1, h2, h3⟩ := (ih acc).2 a t h
        refine ⟨?_, ?_, h3⟩
        · rcases h1 with h1 | ⟨q, c, hq, hc⟩
          · exact Or.inl h1
          · exact Or.inr ⟨q, c, List.mem_cons_of_mem _ hq, hc⟩
        · intro p hp c hc
          rcases List.mem_cons.mp hp with h4 | h4
          · rw [h4] at hc
            simp at hc
          · exact h2 p h4 c hc
    | cons front tl =>
      have hstep : scanOldest ((b, front :: tl) :: rest) acc =
          scanOldest rest (older (b, front.last_used) acc) := rfl
      constructor
      · intro h
        rw [hstep] at h
        cases acc with
        | none =>
          obtain ⟨h1, _⟩ := (ih _).1 h
          cases h1
        | some p0 =>
          obtain ⟨a0, t0⟩ := p0
          obtain ⟨h1, _⟩ := (ih _).1 h
          simp only [older] at h1
          split at h1 <;> cases h1
      · intro a t h
        rw [hstep] at h
        cases acc with
        | none =>
          obtain ⟨h1, h2, h3⟩ := (ih (some (b, front.last_used))).2 a t h
          have hmin : t ≤ front.last_used := h3 b front.last_used rfl
          refine ⟨?_, ?_, ?_⟩
          · rcases h1 with h1 | ⟨q, c, hq, hc⟩
            · cases h1
              exact Or.inr ⟨front :: tl, front, List.mem_cons_self .., rfl, rfl⟩
            · exact Or.inr ⟨q, c, List.mem_cons_of_mem _ hq, hc⟩
          · intro p hp c hc
            rcases List.mem_cons.mp hp with h4 | h4
            · rw [h4] at hc
              simp at hc
              rw [← hc]
              exact hmin
            · exact h2 p h4 c hc
          · intro a0 t0 h0
            cases h0
        | some p0 =>
          obtain ⟨a0, t0⟩ := p0
          by_cases hlt : front.last_used < t0
          · rw [show older (b, front.last_used) (some (a0, t0)) = some (b, front.last_used) by
              simp [older, hlt]] at h
            obtain ⟨h1, h2, h3⟩ := (ih (some (b, front.last_used))).2 a t h
            have hmin : t ≤ front.last_used := h3 b front.last_used rfl
            refine ⟨?_, ?_, ?_⟩
            · rcases h1 with h1 | ⟨q, c, hq, hc⟩
              · cases h1
                exact Or.inr ⟨front :: tl, front, List.mem_cons_self .., rfl, rfl⟩
              · exact Or.inr ⟨q, c, List.mem_cons_of_mem _ hq, hc⟩
            · intro p hp c hc
              rcases List.mem_cons.mp hp with h4 | h4
              · rw [h4] at hc
                simp at hc
                rw [← hc]
                exact hmin
              · exact h2 p h4 c hc
            · intro a1 t1 h1'
              cases h1'
              exact le_trans hmin (le_of_lt hlt)
          · rw [show older (b, front.last_used) (some (a0, t0)) = some (a0, t0) by
              simp [older, hlt]] at h
            obtain ⟨h1, h2, h3⟩ := (ih (some (a0, t0))).2 a t h
            have hmin : t ≤ t0 := h3 a0 t0 rfl
            refine ⟨?_, ?_, ?_⟩
            · rcases h1 with h1 | ⟨q, c, hq, hc⟩
              · exact Or.inl h1
              · exact Or.inr ⟨q, c, List.mem_cons_of_mem _ hq, hc⟩
            · intro p hp c hc
              rcases List.mem_cons.mp hp with h4 | h4
              · rw [h4] at hc
                simp at hc
                rw [← hc]
                exact le_trans hmin (le_of_not_lt hlt)
              · exact h2 p h4 c hc
            · intro a1 t1 h1'
              cases h1'
              exact hmin

/-- What `evict_oldest` does on a well-formed, non-empty pool: it removes the
front connection of some address's queue, that connection's `last_used` is a
minimum over all queue fronts, the emptied map entry is dropped, and `total`
falls by one; well-formedness survives. -/
theorem evict_oldest_spec {s : PoolState} (hwf : poolWf s) (hpos : 0 < s.total) :
    ∃ s' addr c q', evict_oldest s = some s' ∧
      lookupQ s.conns addr = some (c :: q') ∧
      (∀ p ∈ s.conns, ∀ h, p.2.head? = some h → c.last_used ≤ h.last_used) ∧
      s'.conns = (if q' = [] then removeQ s.conns addr else setQ s.conns addr q') ∧
      s'.total = s.total - 1 ∧ poolWf s' := by
  obtain ⟨hinv, hnd⟩ := hwf
  have hpos' : 0 < sumLens s.conns := hinv ▸ hpos
  cases hscan : scanOldest s.conns none with
  | none =>
    obtain ⟨_, hall⟩ := (scanOldest_spec s.conns none).1 hscan
    obtain ⟨p, hp, hne⟩ := sumLens_pos hpos'
    exact absurd (hall p hp) hne
  | some p0 =>
    obtain ⟨addr, t⟩ := p0
    obtain ⟨h1, h2, _⟩ := (scanOldest_spec s.conns none).2 addr t hscan
    rcases h1 with h1 | ⟨q, c, hq, hhead, hlu⟩
    · cases h1
    obtain ⟨tl, rfl⟩ : ∃ tl, q = c :: tl := by
      cases q with
      | nil => simp at hhead
      | cons x xs => simp at hhead; exact ⟨xs, by rw [hhead]⟩
    have hlook : lookupQ s.conns addr = some (c :: tl) := lookupQ_of_mem_nodup hq hnd
    refine ⟨{ conns := if tl = [] then removeQ s.conns addr else setQ s.conns addr tl
              total := s.total - 1 },
      addr, c, tl, ?_, hlook, ?_, rfl, rfl, ?_⟩
    · simp only [evict_oldest, hscan, hlook]
    · intro p hp h hh
      rw [hlu]
      exact h2 p hp h hh
    · constructor
      · have hEq : s.total = sumLens s.conns := hinv
        by_cases htl : tl = []
        · subst htl
          have h5 := sumLens_removeQ hlook
          simp only [List.length_cons, List.length_nil] at h5
          show s.total - 1 = sumLens (removeQ s.conns addr)
          omega
        · have h5 := @sumLens_setQ _ _ _ tl hlook
          simp only [List.length_cons] at h5
          show s.total - 1 = sumLens (if tl = [] then removeQ s.conns addr
            else setQ s.conns addr tl)
          rw [if_neg htl]
          omega
      · show ((if tl = [] then removeQ s.conns addr else setQ s.conns addr tl).map
          Prod.fst).Nodup
        by_cases htl : tl = []
        · simp only [if_pos htl]
          exact keys_removeQ _ _ hnd
        · simp only [if_neg htl]
          rw [keys_setQ]
          exact hnd

/-- The eviction loop lands at or under `max_size` and keeps the pool
well-formed, given fuel at least `total - max_size`. -/
theorem evictWhile_spec (maxSize : Nat) :
    ∀ (fuel : Nat) (s : PoolState), poolWf s → s.total - maxSize ≤ fuel →
      poolWf (evictWhile maxSize fuel s) ∧ (evictWhile maxSize fuel s).total ≤ maxSize := by
  intro fuel
  induction fuel with
  | zero =>
    intro s hwf hfuel
    simp only [evictWhile]
    exact ⟨hwf, by omega⟩
  | succ n ih =>
    intro s hwf hfuel
    by_cases hgt : s.total > maxSize
    · obtain ⟨s', _, _, _, hev, _, _, _, htot, hwf'⟩ :=
        evict_oldest_spec hwf (by omega)
      rw [show evictWhile maxSize (n + 1) s = evictWhile maxSize n s' by
        simp [evictWhile, hgt, hev]]
      exact ih s' hwf' (by omega)
    · rw [show evictWhile maxSize (n + 1) s = s by simp [evictWhile, hgt]]
      exact ⟨hwf, by omega⟩

/-- `recycle` keeps the pool well-formed and lands at or under `max_size`. -/
theorem recycle_spec (maxSize : Nat) {s : PoolState} (hwf : poolWf s)
    (addr : String) (connId now : Nat) :
    poolWf (recycle maxSize s addr connId now) ∧
      (recycle maxSize s addr connId now).total ≤ maxSize := by
  obtain ⟨hinv, hnd⟩ := hwf
  have hwf1 : poolWf
      { conns := pushBackEntry s.conns addr { id := connId, last_used := now }
        total := s.total + 1 } := by
    constructor
    · have hEq : s.total = sumLens s.conns := hinv
      show s.total + 1 = _
      rw [sumLens_pushBackEntry]
      omega
    · exact keys_pushBackEntry _ _ _ hnd
  exact evictWhile_spec maxSize _ _ hwf1 (by omega)

/-- `popState` pops an existing connection: the invariants survive and
`total` falls by one. -/
theorem popState_spec {s : PoolState} {addr : String} {c : PooledConn} {s' : PoolState}
    (hwf : poolWf s) (h : popState s addr = some (c, s')) :
    poolWf s' ∧ s'.total = s.total - 1 := by
  obtain ⟨hinv, hnd⟩ := hwf
  unfold popState at h
  cases hl : lookupQ s.conns addr with
  | none => rw [hl] at h; cases h
  | some q =>
    rw [hl] at h
    simp only [Option.some_bind] at h
    cases hq : popBack q with
    | none => rw [hq] at h; cases h
    | some p =>
      obtain ⟨c2, q'⟩ := p
      rw [hq] at h
      simp only [Option.map_some'] at h
      cases h
      unfold popBack at hq
      cases hlast : q.getLast? with
      | none => rw [hlast] at hq; cases hq
      | some c3 =>
        rw [hlast] at hq
        cases hq
        have hqne : q ≠ [] := by
          intro he
          rw [he] at hlast
          simp at hlast
        have hqlen : q.length = q.dropLast.length + 1 := by
          rw [List.length_dropLast]
          cases q with
          | nil => exact absurd rfl hqne
          | cons x xs => simp
        have hsum := @sumLens_setQ _ _ _ q.dropLast hl
        have hEq : s.total = sumLens s.conns := hinv
        refine ⟨⟨?_, ?_⟩, rfl⟩
        · show s.total - 1 = sumLens (setQ s.conns addr q.dropLast)
          omega
        · show ((setQ s.conns addr q.dropLast).map Prod.fst).Nodup
          rw [keys_setQ]
          exact hnd

/-- The `get` loop keeps the pool well-formed (any fuel, any probe). -/
theorem poolGetAux_wf (maxIdle now : Nat) (probe : PooledConn → Probe) :
    ∀ (fuel : Nat) (s : PoolState) (addr : String), poolWf s →
      poolWf (poolGetAux maxIdle now probe fuel s addr).2 := by
  intro fuel
  induction fuel with
  | zero => intro s addr hwf; exact hwf
  | succ n ih =>
    intro s addr hwf
    show poolWf (match popState s addr with
      | none => (none, s)
      | some (c, s') =>
        if now - c.last_used > maxIdle then poolGetAux maxIdle now probe n s' addr
        else match probe c with
          | .ok 0 => poolGetAux maxIdle now probe n s' addr
          | .ok (_ + 1) => (some c, s')
          | .fail => poolGetAux maxIdle now probe n s' addr
          | .timedOut => poolGetAux maxIdle now probe n s' addr).2
    cases hp : popState s addr with
    | none => exact hwf
    | some p =>
      obtain ⟨c, s'⟩ := p
      have hwf' := (popState_spec hwf hp).1
      by_cases hexp : now - c.last_used > maxIdle
      · simp only [if_pos hexp]
        exact ih s' addr hwf'
      · simp only [if_neg hexp]
        cases hpr : probe c with
        | ok n2 =>
          cases n2 with
          | zero => exact ih s' addr hwf'
          | succ m => exact hwf'
        | fail => exact ih s' addr hwf'
        | timedOut => exact ih s' addr hwf'

/-- Every operation keeps the pool well-formed. -/
theorem applyOp_wf (maxSize : Nat) {s : PoolState} (hwf : poolWf s) (op : PoolOp) :
    poolWf (applyOp maxSize s op) := by
  cases op with
  | get addr now maxIdle probe => exact poolGetAux_wf maxIdle now probe _ s addr hwf
  | recycle addr connId now => exact (recycle_spec maxSize hwf addr connId now).1

/-- Any operation sequence keeps the pool well-formed. -/
theorem applyOps_wf (maxSize : Nat) :
    ∀ (ops : List PoolOp) (s : PoolState), poolWf s → poolWf (applyOps maxSize s ops) := by
  intro ops
  induction ops with
  | nil => intro s hwf; exact hwf
  | cons op rest ih =>
    intro s hwf
    exact ih _ (applyOp_wf maxSize hwf op)

theorem applyOps_append (maxSize : Nat) (l₁ l₂ : List PoolOp) :
    ∀ s, applyOps maxSize s (l₁ ++ l₂) = applyOps maxSize (applyOps maxSize s l₁) l₂ := by
  induction l₁ with
  | nil => intro s; rfl
  | cons op rest ih => intro s; exact ih (applyOp maxSize s op)

theorem emptyPool_wf : poolWf emptyPool := ⟨rfl, List.nodup_nil⟩

/-! ## Lemmas: pool membership -/

/-- Every connection held anywhere in the map. -/
def allConns (l : List (String × Queue)) : List PooledConn :=
  (l.map Prod.snd).flatten

/-- Is a connection with identity `i` pooled in `s`? -/
abbrev idInPool (s : PoolState) (i : Nat) : Prop :=
  ∃ c ∈ allConns s.conns, c.id = i

@[simp] theorem allConns_nil : allConns [] = [] := rfl

@[simp] theorem allConns_cons (a : String) (q : Queue) (l : List (String × Queue)) :
    allConns ((a, q) :: l) = q ++ allConns l := rfl

theorem allConns_append (l₁ l₂ : List (String × Queue)) :
    allConns (l₁ ++ l₂) = allConns l₁ ++ allConns l₂ := by
  simp [allConns]

theorem lookupQ_mem {l : List (String × Queue)} {a : String} {q : Queue}
    (h : lookupQ l a = some q) : (a, q) ∈ l := by
  induction l with
  | nil => simp at h
  | cons p rest ih =>
    obtain ⟨b, qb⟩ := p
    rw [lookupQ_cons] at h
    by_cases hb : b = a
    · rw [if_pos hb] at h
      cases h
      rw [hb]
      exact List.mem_cons_self ..
    · rw [if_neg hb] at h
      exact List.mem_cons_of_mem _ (ih h)

theorem mem_allConns_of_lookup {l : List (String × Queue)} {a : String} {q : Queue}
    (h : lookupQ l a = some q) {x : PooledConn} (hx : x ∈ q) : x ∈ allConns l := by
  induction l with
  | nil => simp at h
  | cons p rest ih =>
    obtain ⟨b, qb⟩ := p
    rw [lookupQ_cons] at h
    rw [allConns_cons]
    by_cases hb : b = a
    · rw [if_pos hb] at h
      cases h
      exact List.mem_append_left _ hx
    · rw [if_neg hb] at h
      exact List.mem_append_right _ (ih h)

theorem mem_allConns_setQ {l : List (String × Queue)} {a : String} {q' : Queue}
    {x : PooledConn} (hx : x ∈ allConns (setQ l a q')) : x ∈ allConns l ∨ x ∈ q' := by
  induction l with
  | nil => simp [setQ] at hx
  | cons p rest ih =>
    obtain ⟨b, qb⟩ := p
    rw [setQ_cons] at hx
    by_cases hb : b = a
    · rw [if_pos hb, allConns_cons] at hx
      rcases List.mem_append.mp hx with h | h
      · exact Or.inr h
      · exact Or.inl (by rw [allConns_cons]; exact List.mem_append_right _ h)
    · rw [if_neg hb, allConns_cons] at hx
      rcases List.mem_append.mp hx with h | h
      · exact Or.inl (by rw [allConns_cons]; exact List.mem_append_left _ h)
      · rcases ih h with h2 | h2
        · exact Or.inl (by rw [allConns_cons]; exact List.mem_append_right _ h2)
        · exact Or.inr h2

theorem mem_setQ_of_mem {l : List (String × Queue)} {a : String} {q' : Queue}
    (hl : (lookupQ l a).isSome) {x : PooledConn} (hx : x ∈ q') :
    x ∈ allConns (setQ l a q') := by
  induction l with
  | nil => simp at hl
  | cons p rest ih =>
    obtain ⟨b, qb⟩ := p
    rw [setQ_cons]
    by_cases hb : b = a
    · rw [if_pos hb, allConns_cons]
      exact List.mem_append_left _ hx
    · rw [lookupQ_cons, if_neg hb] at hl
      rw [if_neg hb, allConns_cons]
      exact List.mem_append_right _ (ih hl)

theorem mem_allConns_removeQ {l : List (String × Queue)} {a : String}
    {x : PooledConn} (hx : x ∈ allConns (removeQ l a)) : x ∈ allConns l := by
  induction l with
  | nil => simp [removeQ] at hx
  | cons p rest ih =>
    obtain ⟨b, qb⟩ := p
    simp only [removeQ] at hx
    by_cases hb : b = a
    · rw [if_pos hb] at hx
      rw [allConns_cons]
      exact List.mem_append_right _ hx
    · rw [if_neg hb, allConns_cons] at hx
      rw [allConns_cons]
      rcases List.mem_append.mp hx with h | h
      · exact List.mem_append_left _ h
      · exact List.mem_append_right _ (ih h)

/-- Anything pooled after a `pushBackEntry` was pooled before or is the pushed
connection. -/
theorem mem_allConns_pushBackEntry {l : List (String × Queue)} {a : String}
    {c x : PooledConn} (hx : x ∈ allConns (pushBackEntry l a c)) :
    x ∈ allConns l ∨ x = c := by
  unfold pushBackEntry at hx
  cases hl : lookupQ l a with
  | none =>
    rw [hl] at hx
    rw [allConns_append] at hx
    rcases List.mem_append.mp hx with h | h
    · exact Or.inl h
    · simp at h
      exact Or.inr h
  | some q =>
    rw [hl] at hx
    rcases mem_allConns_setQ hx with h | h
    · exact Or.inl h
    · rcases List.mem_append.mp h with h2 | h2
      · exact Or.inl (mem_allConns_of_lookup hl h2)
      · simp at h2
        exact Or.inr h2

/-- The pushed connection is pooled after a `pushBackEntry`. -/
theorem pushed_mem_allConns (l : List (String × Queue)) (a : String) (c : PooledConn) :
    c ∈ allConns (pushBackEntry l a c) := by
  unfold pushBackEntry
  cases hl : lookupQ l a with
  | none =>
    rw [allConns_append]
    exact List.mem_append_right _ (by simp)
  | some q =>
    exact mem_setQ_of_mem (by rw [hl]; rfl) (List.mem_append_right _ (by simp))

theorem setQ_setQ (l : List (String × Queue)) (a : String) (q₁ q₂ : Queue) :
    setQ (setQ l a q₁) a q₂ = setQ l a q₂ := by
  induction l with
  | nil => rfl
  | cons p rest ih =>
    obtain ⟨b, qb⟩ := p
    by_cases hb : b = a
    · simp [setQ_cons, hb]
    · simp [setQ_cons, hb, ih]

theorem lookupQ_setQ_self {l : List (String × Queue)} {a : String} {q : Queue}
    (h : lookupQ l a = some q) (q' : Queue) : lookupQ (setQ l a q') a = some q' := by
  induction l with
  | nil => simp at h
  | cons p rest ih =>
    obtain ⟨b, qb⟩ := p
    rw [lookupQ_cons] at h
    by_cases hb : b = a
    · rw [setQ_cons, if_pos hb, lookupQ_cons, if_pos hb]
    · rw [if_neg hb] at h
      rw [setQ_cons, if_neg hb, lookupQ_cons, if_neg hb]
      exact ih h

theorem setQ_self {l : List (String × Queue)} {a : String} {q : Queue}
    (h : lookupQ l a = some q) : setQ l a q = l := by
  induction l with
  | nil => rfl
  | cons p rest ih =>
    obtain ⟨b, qb⟩ := p
    rw [lookupQ_cons] at h
    by_cases hb : b = a
    · rw [if_pos hb] at h
      cases h
      rw [setQ_cons, if_pos hb]
    · rw [if_neg hb] at h
      rw [setQ_cons, if_neg hb, ih h]

/-- One unfolding step of the `get` loop. -/
theorem poolGetAux_succ (maxIdle now : Nat) (probe : PooledConn → Probe) (fuel : Nat)
    (s : PoolState) (addr : String) :
    poolGetAux maxIdle now probe (fuel + 1) s addr =
      match popState s addr with
      | none => (none, s)
      | some (c, s') =>
        if now - c.last_used > maxIdle then poolGetAux maxIdle now probe fuel s' addr
        else
          match probe c with
          | .ok 0 => poolGetAux maxIdle now probe fuel s' addr
          | .ok (_ + 1) => (some c, s')
          | .fail => poolGetAux maxIdle now probe fuel s' addr
          | .timedOut => poolGetAux maxIdle now probe fuel s' addr := rfl

/-- `popState` on a present, non-empty queue. -/
theorem popState_eq {s : PoolState} {addr : String} {q : Queue}
    (h : lookupQ s.conns addr = some q) (back : PooledConn) (front : Queue)
    (hq : q = front ++ [back]) :
    popState s addr = some (back,
      { conns := setQ s.conns addr front, total := s.total - 1 }) := by
  unfold popState
  rw [h]
  simp only [Option.some_bind]
  unfold popBack
  rw [hq]
  rw [List.getLast?_concat, List.dropLast_concat]
  rfl

/-- `popState` on an empty or missing queue. -/
theorem popState_none {s : PoolState} {addr : String}
    (h : lookupQ s.conns addr = none ∨ lookupQ s.conns addr = some []) :
    popState s addr = none := by
  unfold popState
  rcases h with h | h <;> rw [h] <;> rfl

/-- A discarded candidate (expired or failing its probe) makes the `get` loop
continue on the popped state. -/
theorem poolGetAux_discard (maxIdle now : Nat) (probe : PooledConn → Probe) (fuel : Nat)
    {s : PoolState} {addr : String} {c : PooledConn} {s' : PoolState}
    (hpop : popState s addr = some (c, s'))
    (hbad : keepCandidate maxIdle now probe c = false) :
    poolGetAux maxIdle now probe (fuel + 1) s addr =
      poolGetAux maxIdle now probe fuel s' addr := by
  rw [poolGetAux_succ, hpop]
  unfold keepCandidate at hbad
  by_cases hexp : now - c.last_used > maxIdle
  · simp only [if_pos hexp]
  · simp only [if_neg hexp]
    rw [decide_eq_false hexp] at hbad
    simp only [Bool.not_false, Bool.true_and] at hbad
    cases hpr : probe c with
    | ok n =>
      cases n with
      | zero => rfl
      | succ m => rw [hpr] at hbad; simp at hbad
    | fail => rfl
    | timedOut => rfl

/-- A kept candidate (fresh and probe-positive) is returned at once. -/
theorem poolGetAux_keep (maxIdle now : Nat) (probe : PooledConn → Probe) (fuel : Nat)
    {s : PoolState} {addr : String} {c : PooledConn} {s' : PoolState}
    (hpop : popState s addr = some (c, s'))
    (hgood : keepCandidate maxIdle now probe c = true) :
    poolGetAux maxIdle now probe (fuel + 1) s addr = (some c, s') := by
  rw [poolGetAux_succ, hpop]
  unfold keepCandidate at hgood
  by_cases hexp : now - c.last_used > maxIdle
  · simp [hexp] at hgood
  · simp only [if_neg hexp]
    cases hpr : probe c with
    | ok n =>
      cases n with
      | zero => rw [hpr] at hgood; simp at hgood
      | succ m => rfl
    | fail => rw [hpr] at hgood; simp at hgood
    | timedOut => rw [hpr] at hgood; simp at hgood

/-- When every queued candidate fails, the `get` loop pops them all (newest
first) and falls through to a fresh connection, leaving the queue empty. -/
theorem poolGetAux_allFail (maxIdle now : Nat) (probe : PooledConn → Probe) :
    ∀ (rq : List PooledConn) (fuel : Nat) (s : PoolState) (addr : String) (q : Queue),
      lookupQ s.conns addr = some q → q.reverse = rq → rq.length < fuel →
      (∀ b ∈ q, keepCandidate maxIdle now probe b = false) →
      poolGetAux maxIdle now probe fuel s addr =
        (none, { conns := setQ s.conns addr [], total := s.total - q.length }) := by
  intro rq
  induction rq with
  | nil =>
    intro fuel s addr q hlook hrev hfuel _
    have hq : q = [] := by
      have := congrArg List.reverse hrev
      simpa using this
    subst hq
    obtain ⟨f, rfl⟩ : ∃ f, fuel = f + 1 := ⟨fuel - 1, by omega⟩
    rw [poolGetAux_succ, popState_none (Or.inr hlook)]
    rw [setQ_self hlook]
    simp
  | cons b rq' ih =>
    intro fuel s addr q hlook hrev hfuel hbad
    have hq : q = rq'.reverse ++ [b] := by
      have := congrArg List.reverse hrev
      simpa using this
    obtain ⟨f, rfl⟩ : ∃ f, fuel = f + 1 := ⟨fuel - 1, by omega⟩
    have hpop := popState_eq hlook b rq'.reverse hq
    have hbmem : b ∈ q := by rw [hq]; exact List.mem_append_right _ (by simp)
    rw [poolGetAux_discard maxIdle now probe f hpop (hbad b hbmem)]
    have hlen : rq'.length < f := by
      simp at hfuel
      omega
    have hrec := ih f { conns := setQ s.conns addr rq'.reverse, total := s.total - 1 }
      addr rq'.reverse (lookupQ_setQ_self hlook rq'.reverse) (by simp) (by simpa using hlen)
      (fun b2 hb2 => hbad b2 (by rw [hq]; exact List.mem_append_left _ hb2))
    rw [hrec]
    rw [setQ_setQ]
    have hql : q.length = rq'.length + 1 := by
      rw [hq]
      simp
    congr 2
    simp
    omega

/-- The `get` loop returns the most-recently-returned candidate that is
neither expired nor probe-dead, discarding exactly the younger failing ones. -/
theorem poolGetAux_firstGood (maxIdle now : Nat) (probe : PooledConn → Probe) :
    ∀ (bad : List PooledConn) (fuel : Nat) (s : PoolState) (addr : String) (q : Queue)
      (c : PooledConn) (rest : List PooledConn),
      lookupQ s.conns addr = some q → q.reverse = bad ++ c :: rest →
      bad.length < fuel →
      (∀ b ∈ bad, keepCandidate maxIdle now probe b = false) →
      keepCandidate maxIdle now probe c = true →
      poolGetAux maxIdle now probe fuel s addr =
        (some c, { conns := setQ s.conns addr rest.reverse
                   total := s.total - (bad.length + 1) }) := by
  intro bad
  induction bad with
  | nil =>
    intro fuel s addr q c rest hlook hrev hfuel _ hgood
    have hq : q = rest.reverse ++ [c] := by
      have := congrArg List.reverse hrev
      simpa using this
    obtain ⟨f, rfl⟩ : ∃ f, fuel = f + 1 := ⟨fuel - 1, by omega⟩
    have hpop := popState_eq hlook c rest.reverse hq
    rw [poolGetAux_keep maxIdle now probe f hpop hgood]
    simp
  | cons b bad' ih =>
    intro fuel s addr q c rest hlook hrev hfuel hbad hgood
    have hq : q = (bad' ++ c :: rest).reverse ++ [b] := by
      have := congrArg List.reverse hrev
      simpa using this
    obtain ⟨f, rfl⟩ : ∃ f, fuel = f + 1 := ⟨fuel - 1, by omega⟩
    have hpop := popState_eq hlook b (bad' ++ c :: rest).reverse hq
    rw [poolGetAux_discard maxIdle now probe f hpop (hbad b (List.mem_cons_self ..))]
    have hrec := ih f
      { conns := setQ s.conns addr (bad' ++ c :: rest).reverse, total := s.total - 1 }
      addr (bad' ++ c :: rest).reverse c rest (lookupQ_setQ_self hlook _) (by simp)
      (by simp at hfuel; omega)
      (fun b2 hb2 => hbad b2 (List.mem_cons_of_mem _ hb2)) hgood
    rw [hrec]
    rw [setQ_setQ]
    congr 2
    simp
    omega

/-- A popped candidate was pooled, and popping only removes connections. -/
theorem popState_mem {s : PoolState} {addr : String} {c : PooledConn} {s' : PoolState}
    (h : popState s addr = some (c, s')) :
    c ∈ allConns s.conns ∧ ∀ x ∈ allConns s'.conns, x ∈ allConns s.conns := by
  unfold popState at h
  cases hl : lookupQ s.conns addr with
  | none => rw [hl] at h; cases h
  | some q =>
    rw [hl] at h
    simp only [Option.some_bind] at h
    cases hq : popBack q with
    | none => rw [hq] at h; cases h
    | some p =>
      obtain ⟨c2, q'⟩ := p
      rw [hq] at h
      simp only [Option.map_some'] at h
      cases h
      unfold popBack at hq
      cases hlast : q.getLast? with
      | none => rw [hlast] at hq; cases hq
      | some c3 =>
        rw [hlast] at hq
        cases hq
        constructor
        · exact mem_allConns_of_lookup hl (List.mem_of_mem_getLast? hlast)
        · intro x hx
          rcases mem_allConns_setQ hx with h2 | h2
          · exact h2
          · exact mem_allConns_of_lookup hl (List.dropLast_subset q h2)

/-- A connection handed back by the `get` loop passed the idle check and the
liveness probe, and came out of the pool. -/
theorem poolGetAux_some (maxIdle now : Nat) (probe : PooledConn → Probe) :
    ∀ (fuel : Nat) (s : PoolState) (addr : String) (c : PooledConn) (s' : PoolState),
      poolGetAux maxIdle now probe fuel s addr = (some c, s') →
      keepCandidate maxIdle now probe c = true ∧ c ∈ allConns s.conns := by
  intro fuel
  induction fuel with
  | zero => intro s addr c s' h; cases h
  | succ n ih =>
    intro s addr c s' h
    cases hp : popState s addr with
    | none =>
      rw [poolGetAux_succ, hp] at h
      simp at h
    | some p =>
      obtain ⟨c2, s2⟩ := p
      obtain ⟨hc2mem, hsub⟩ := popState_mem hp
      cases hk : keepCandidate maxIdle now probe c2 with
      | true =>
        rw [poolGetAux_keep maxIdle now probe n hp hk] at h
        obtain ⟨h1, h2⟩ := Prod.mk.injEq .. ▸ h
        cases h1
        exact ⟨hk, hc2mem⟩
      | false =>
        rw [poolGetAux_discard maxIdle now probe n hp hk] at h
        obtain ⟨hkc, hm⟩ := ih s2 addr c s' h
        exact ⟨hkc, hsub c hm⟩

/-- The `get` loop's final state holds no connection the initial state did
not hold. -/
theorem poolGetAux_subset (maxIdle now : Nat) (probe : PooledConn → Probe) :
    ∀ (fuel : Nat) (s : PoolState) (addr : String),
      ∀ x ∈ allConns (poolGetAux maxIdle now probe fuel s addr).2.conns,
        x ∈ allConns s.conns := by
  intro fuel
  induction fuel with
  | zero => intro s addr x hx; exact hx
  | succ n ih =>
    intro s addr x hx
    cases hp : popState s addr with
    | none =>
      rw [poolGetAux_succ, hp] at hx
      exact hx
    | some p =>
      obtain ⟨c2, s2⟩ := p
      obtain ⟨_, hsub⟩ := popState_mem hp
      cases hk : keepCandidate maxIdle now probe c2 with
      | true =>
        rw [poolGetAux_keep maxIdle now probe n hp hk] at hx
        exact hsub x hx
      | false =>
        rw [poolGetAux_discard maxIdle now probe n hp hk] at hx
        exact hsub x (ih s2 addr x hx)

/-- Eviction only removes connections. -/
theorem evict_oldest_subset {s s' : PoolState} (h : evict_oldest s = some s') :
    ∀ x ∈ allConns s'.conns, x ∈ allConns s.conns := by
  unfold evict_oldest at h
  split at h
  · cases h
  · rename_i addr t hscan
    split at h
    · cases h
      intro x hx
      exact hx
    · cases h
      intro x hx
      exact mem_allConns_removeQ hx
    · rename_i front q' hl
      cases h
      intro x hx
      by_cases hq : q' = []
      · rw [if_pos hq] at hx
        exact mem_allConns_removeQ hx
      · rw [if_neg hq] at hx
        rcases mem_allConns_setQ hx with h2 | h2
        · exact h2
        · exact mem_allConns_of_lookup hl (List.mem_cons_of_mem _ h2)

/-- The eviction loop only removes connections. -/
theorem evictWhile_subset (maxSize : Nat) :
    ∀ (fuel : Nat) (s : PoolState),
      ∀ x ∈ allConns (evictWhile maxSize fuel s).conns, x ∈ allConns s.conns := by
  intro fuel
  induction fuel with
  | zero => intro s x hx; exact hx
  | succ n ih =>
    intro s x hx
    by_cases hgt : s.total > maxSize
    · cases hev : evict_oldest s with
      | none =>
        rw [show evictWhile maxSize (n + 1) s = s by simp [evictWhile, hgt, hev]] at hx
        exact hx
      | some s2 =>
        rw [show evictWhile maxSize (n + 1) s = evictWhile maxSize n s2 by
          simp [evictWhile, hgt, hev]] at hx
        exact evict_oldest_subset hev x (ih s2 x hx)
    · rw [show evictWhile maxSize (n + 1) s = s by simp [evictWhile, hgt]] at hx
      exact hx

/-- Recycling adds only the recycled connection's identity. -/
theorem recycle_mem {maxSize : Nat} {s : PoolState} {addr : String} {connId now : Nat}
    {x : PooledConn} (hx : x ∈ allConns (recycle maxSize s addr connId now).conns) :
    x ∈ allConns s.conns ∨ x.id = connId := by
  unfold recycle at hx
  have h1 := evictWhile_subset maxSize _ _ x hx
  rcases mem_allConns_pushBackEntry h1 with h2 | h2
  · exact Or.inl h2
  · rw [h2]
    exact Or.inr rfl

/-- A state at or under capacity is untouched by the eviction loop. -/
theorem evictWhile_noop {maxSize : Nat} {s : PoolState} (h : s.total ≤ maxSize) :
    ∀ fuel, evictWhile maxSize fuel s = s := by
  intro fuel
  cases fuel with
  | zero => rfl
  | succ n =>
    simp only [evictWhile]
    rw [if_neg (by omega)]

/-- No eviction fires when the pool is below capacity before a recycle. -/
theorem recycle_no_evict {maxSize : Nat} {s : PoolState} (h : s.total < maxSize)
    (addr : String) (connId now : Nat) :
    recycle maxSize s addr connId now =
      { conns := pushBackEntry s.conns addr { id := connId, last_used := now }
        total := s.total + 1 } := by
  unfold recycle
  exact evictWhile_noop (by simp; omega) _

/-- Which identity a pool operation recycles, if any. -/
abbrev opRecyclesId : PoolOp → Nat → Prop
  | .recycle _ connId _, i => connId = i
  | .get _ _ _ _, _ => False

/-- An identity that is out of the pool stays out across any operations that
do not recycle it. -/
theorem notIn_applyOps (maxSize : Nat) :
    ∀ (ops : List PoolOp) (s : PoolState) (i : Nat), ¬ idInPool s i →
      (∀ op ∈ ops, ¬ opRecyclesId op i) → ¬ idInPool (applyOps maxSize s ops) i := by
  intro ops
  induction ops with
  | nil => intro s i h _; exact h
  | cons op rest ih =>
    intro s i h hops
    refine ih (applyOp maxSize s op) i ?_ fun op2 hop2 => hops op2 (List.mem_cons_of_mem _ hop2)
    intro ⟨c, hc, hid⟩
    cases op with
    | get addr now maxIdle probe =>
      exact h ⟨c, poolGetAux_subset maxIdle now probe _ s addr c hc, hid⟩
    | recycle addr connId now =>
      rcases recycle_mem hc with h2 | h2
      · exact h ⟨c, h2, hid⟩
      · exact hops _ (List.mem_cons_self ..) (show connId = i by rw [← hid, h2])

/-! ## Claim theorems: connection pool (C3-C6) -/

/-- C3: after any sequence of pool `get` (acquire) and `recycle` operations,
the pool's `total` counter equals the sum of the lengths of all per-address
queues, and `total <= max_size` holds whenever `recycle` returns. -/
theorem claim_C3_pool_invariant (maxSize : Nat) (ops : List PoolOp) :
    (applyOps maxSize emptyPool ops).total
        = sumLens (applyOps maxSize emptyPool ops).conns ∧
    ∀ (addr : String) (connId now : Nat),
      (applyOps maxSize emptyPool
          (ops ++ [PoolOp.recycle addr connId now])).total ≤ maxSize := by
  have hwf := applyOps_wf maxSize ops emptyPool emptyPool_wf
  refine ⟨hwf.1, ?_⟩
  intro addr connId now
  rw [applyOps_append]
  exact (recycle_spec maxSize hwf addr connId now).2

/-- C4: the upstream socket is recycled into the pool iff the relay finished
without I/O error and the response was keep-alive; a socket dropped on error
or a non-keep-alive response stays out of the pool across any later
operations that do not recycle it, and an acquire only ever returns pooled
connections, so the dropped socket never reappears. -/
theorem claim_C4_recycle_iff_ok_keepalive :
    (∀ (maxSize : Nat) (s : PoolState) (addr : String) (conn : PooledConn)
       (now : Nat) (res : Except IoErr Unit) (ka : Bool),
       ¬ idInPool s conn.id → s.total < maxSize →
       (idInPool (finishExchange maxSize s addr conn.id now res ka) conn.id ↔
         (res = .ok () ∧ ka = true))) ∧
    (∀ (maxSize : Nat) (s : PoolState) (i : Nat) (ops : List PoolOp),
       ¬ idInPool s i → (∀ op ∈ ops, ¬ opRecyclesId op i) →
       ¬ idInPool (applyOps maxSize s ops) i) ∧
    (∀ (maxIdle now : Nat) (probe : PooledConn → Probe) (s : PoolState) (addr : String)
       (c : PooledConn) (s' : PoolState),
       poolGet maxIdle now probe s addr = (some c, s') → c ∈ allConns s.conns) := by
  refine ⟨?_, fun maxSize s i ops => notIn_applyOps maxSize ops s i, ?_⟩
  · intro maxSize s addr conn now res ka hnotin hlt
    cases res with
    | error e =>
      show idInPool s conn.id ↔ _
      constructor
      · intro h
        exact absurd h hnotin
      · intro ⟨h, _⟩
        cases h
    | ok u =>
      cases u
      cases ka with
      | false =>
        show idInPool s conn.id ↔ _
        constructor
        · intro h
          exact absurd h hnotin
        · intro ⟨_, h⟩
          cases h
      | true =>
        show idInPool (recycle maxSize s addr conn.id now) conn.id ↔ _
        constructor
        · intro _
          exact ⟨rfl, rfl⟩
        · intro _
          rw [recycle_no_evict hlt]
          exact ⟨{ id := conn.id, last_used := now }, pushed_mem_allConns .., rfl⟩
  · intro maxIdle now probe s addr c s' h
    exact (poolGetAux_some maxIdle now probe _ s addr c s' h).2

/-- Witness for C4 at a concrete exchange: a successful keep-alive relay
recycles the socket, a failed relay leaves it out of the pool. -/
theorem claim_C4_witness :
    (idInPool (finishExchange 4 emptyPool "a" 7 5 (.ok ()) true) 7 ↔
      ((.ok () : Except IoErr Unit) = .ok () ∧ true = true)) ∧
    (idInPool (finishExchange 4 emptyPool "a" 7 5
        (.error (.unexpectedEof "chunked eof")) true) 7 ↔
      ((.error (.unexpectedEof "chunked eof") : Except IoErr Unit) = .ok () ∧
        true = true)) :=
  ⟨claim_C4_recycle_iff_ok_keepalive.1 4 emptyPool "a" ⟨7, 0⟩ 5 (.ok ()) true
      (by decide) (by decide),
    claim_C4_recycle_iff_ok_keepalive.1 4 emptyPool "a" ⟨7, 0⟩ 5
      (.error (.unexpectedEof "chunked eof")) true (by decide) (by decide)⟩

/-- C5: an acquire pops candidates most-recently-returned first from the
requested address's queue only; an expired or probe-dead candidate is
discarded and the next one tried; the first passing candidate is returned;
exhausting the queue yields `none` (the caller then dials a brand-new
connection); and a returned candidate always passed the idle check and the
liveness probe, so a closed-peer connection is never handed back. -/
theorem claim_C5_acquire_mru_probe :
    ∀ (maxIdle now : Nat) (probe : PooledConn → Probe) (s : PoolState) (addr : String)
      (q : Queue), lookupQ s.conns addr = some q →
      (∀ (bad : List PooledConn) (c : PooledConn) (rest : List PooledConn),
        q.reverse = bad ++ c :: rest →
        (∀ b ∈ bad, keepCandidate maxIdle now probe b = false) →
        keepCandidate maxIdle now probe c = true →
        poolGet maxIdle now probe s addr =
          (some c, { conns := setQ s.conns addr rest.reverse
                     total := s.total - (bad.length + 1) })) ∧
      ((∀ b ∈ q, keepCandidate maxIdle now probe b = false) →
        poolGet maxIdle now probe s addr =
          (none, { conns := setQ s.conns addr [], total := s.total - q.length })) ∧
      (∀ (c : PooledConn) (s' : PoolState),
        poolGet maxIdle now probe s addr = (some c, s') →
        keepCandidate maxIdle now probe c = true) := by
  intro maxIdle now probe s addr q hlook
  refine ⟨?_, ?_, ?_⟩
  · intro bad c rest hrev hbad hgood
    have hlen : bad.length < q.length + 1 := by
      have := congrArg List.length hrev
      simp at this
      omega
    unfold poolGet
    rw [hlook]
    exact poolGetAux_firstGood maxIdle now probe bad (q.length + 1) s addr q c rest
      hlook hrev (by simpa using hlen) hbad hgood
  · intro hbad
    unfold poolGet
    rw [hlook]
    exact poolGetAux_allFail maxIdle now probe q.reverse (q.length + 1) s addr q
      hlook rfl (by simp) hbad
  · intro c s' h
    exact (poolGetAux_some maxIdle now probe _ s addr c s' h).1

/-- Witness for C5: with one pooled connection whose peer has closed (the
probe reports zero bytes), a second acquire pops and discards it and reports
`none`, so the caller establishes a fresh connection instead. -/
theorem claim_C5_witness :
    poolGet 60 100 (fun _ => Probe.ok 0)
        { conns := [("a", [⟨1, 90⟩])], total := 1 } "a" =
      (none, { conns := [("a", [])], total := 0 }) :=
  ((claim_C5_acquire_mru_probe 60 100 (fun _ => Probe.ok 0)
      { conns := [("a", [⟨1, 90⟩])], total := 1 } "a" [⟨1, 90⟩] (by decide)).2.1
    (by decide)).trans (by decide)

/-- C6: whenever a recycle pushes `total` above `max_size`, each eviction
pass removes exactly one connection, the front of some queue whose
`last_used` is minimal among all queue fronts, dropping the map entry if the
queue empties, and the loop continues until `total` is at most `max_size`;
with two addresses holding distinct timestamps the older one is evicted
first. -/
theorem claim_C6_evict_globally_oldest :
    (∀ s : PoolState, poolWf s → 0 < s.total →
      ∃ s' addr c q', evict_oldest s = some s' ∧
        lookupQ s.conns addr = some (c :: q') ∧
        (∀ p ∈ s.conns, ∀ h, p.2.head? = some h → c.last_used ≤ h.last_used) ∧
        s'.conns = (if q' = [] then removeQ s.conns addr else setQ s.conns addr q') ∧
        s'.total = s.total - 1) ∧
    (∀ (maxSize : Nat) (s : PoolState), poolWf s → ∀ (addr : String) (connId now : Nat),
      (recycle maxSize s addr connId now).total ≤ maxSize) ∧
    (recycle 2 { conns := [("a", [⟨1, 10⟩]), ("b", [⟨2, 20⟩])], total := 2 } "c" 3 30
      = { conns := [("b", [⟨2, 20⟩]), ("c", [⟨3, 30⟩])], total := 2 }) := by
  refine ⟨?_, ?_, by decide⟩
  · intro s hwf hpos
    obtain ⟨s', addr, c, q', hev, hlook, hmin, hconns, htot, _⟩ := evict_oldest_spec hwf hpos
    exact ⟨s', addr, c, q', hev, hlook, hmin, hconns, htot⟩
  · intro maxSize s hwf addr connId now
    exact (recycle_spec maxSize hwf addr connId now).2

/-- Witness for C6 on a concrete over-capacity pool: eviction removes the
globally oldest front and drops the emptied entry. -/
theorem claim_C6_witness :
    ∃ s' addr c q',
      evict_oldest { conns := [("a", [⟨1, 10⟩]), ("b", [⟨2, 20⟩])], total := 2 }
          = some s' ∧
      lookupQ [("a", [⟨1, 10⟩]), ("b", [⟨2, 20⟩])] addr = some (c :: q') ∧
      (∀ p ∈ [("a", [(⟨1, 10⟩ : PooledConn)]), ("b", [⟨2, 20⟩])], ∀ h,
        p.2.head? = some h → c.last_used ≤ h.last_used) ∧
      s'.conns = (if q' = [] then removeQ [("a", [⟨1, 10⟩]), ("b", [⟨2, 20⟩])] addr
        else setQ [("a", [⟨1, 10⟩]), ("b", [⟨2, 20⟩])] addr q') ∧
      s'.total = 2 - 1 :=
  claim_C6_evict_globally_oldest.1
    { conns := [("a", [⟨1, 10⟩]), ("b", [⟨2, 20⟩])], total := 2 }
    ⟨by decide, by decide⟩ (by decide)

/-! ## Claim theorems: content-length relay (C2) -/

/-- The content-length loop forwards exactly the first `r` bytes the upstream
serves (all of them if fewer arrive) and always returns `Ok`. -/
theorem rclLoop_spec :
    ∀ (chunks : Chunks) (r : Nat) (client : Bytes), (∀ c ∈ chunks, c ≠ []) →
      rclLoop chunks r client = (.ok (), client ++ chunks.flatten.take r) := by
  intro chunks
  induction chunks with
  | nil =>
    intro r client _
    cases r with
    | zero => simp [rclLoop]
    | succ n => simp [rclLoop]
  | cons c rest ih =>
    intro r client hne
    cases r with
    | zero => simp [rclLoop]
    | succ n =>
      have hcne : c ≠ [] := hne c (List.mem_cons_self ..)
      show rclLoop (c :: rest) (n + 1) client = _
      rw [show rclLoop (c :: rest) (n + 1) client =
          rclLoop rest (n + 1 - min c.length (n + 1)) (client ++ c.take (min c.length (n + 1)))
        by simp [rclLoop, hcne]]
      rw [ih _ _ fun c2 hc2 => hne c2 (List.mem_cons_of_mem _ hc2)]
      rw [List.flatten_cons, List.take_append_eq_append_take, List.append_assoc]
      have h1 : c.take (min c.length (n + 1)) = c.take (n + 1) := by
        rcases Nat.le_total c.length (n + 1) with h | h
        · rw [Nat.min_eq_left h, List.take_length, List.take_of_length_le h]
        · rw [Nat.min_eq_right h]
      have h2 : n + 1 - min c.length (n + 1) = n + 1 - c.length := by omega
      rw [h1, h2]

/-- C2: the content-length relay forwards exactly `content_length` body bytes
to the client, counting the `body_prefix` bytes captured past the header
boundary, regardless of read chunk boundaries, and returns success even when
the upstream closes before the target is reached. -/
theorem claim_C2_content_length_exact :
    ∀ ( body_prefix : Bytes) (chunks : Chunks) (content_length : Nat),
      (∀ c ∈ chunks, c ≠ []) → body_prefix.length ≤ content_length →
      (relay_content_length chunks content_length body_prefix.length).1 = .ok () ∧
      content_length_body body_prefix chunks content_length
        = ( body_prefix ++ chunks.flatten).take content_length ∧
      (content_length_body body_prefix chunks content_length).length
        = min content_length ( body_prefix.length + chunks.flatten.length) := by
  intro body_prefix chunks content_length hne hle
  have hrun := rclLoop_spec chunks (content_length - body_prefix.length) [] hne
  have h1 : relay_content_length chunks content_length body_prefix.length
      = (.ok (), chunks.flatten.take (content_length - body_prefix.length)) := by
    unfold relay_content_length
    rw [hrun]
    simp
  have h2 : content_length_body body_prefix chunks content_length
      = ( body_prefix ++ chunks.flatten).take content_length := by
    unfold content_length_body
    rw [h1]
    rw [List.take_append_eq_append_take, List.take_of_length_le hle]
  refine ⟨by rw [h1], h2, ?_⟩
  rw [h2, List.length_take, List.length_append]

/-- Witness for C2 on the spec's example: `Content-Length: 5`, upstream body
`hello` served one byte at a time plus trailing garbage, yields success and
exactly `hello`; a truncated upstream (`he` then close) still yields success. -/
theorem claim_C2_witness :
    (relay_content_length
        ["h".toList, "e".toList, "l".toList, "l".toList, "o".toList, "XY".toList] 5 0).1
      = .ok () ∧
    content_length_body []
        ["h".toList, "e".toList, "l".toList, "l".toList, "o".toList, "XY".toList] 5
      = "hello".toList ∧
    content_length_body "h".toList ["e".toList] 5 = "he".toList := by
  have t1 := claim_C2_content_length_exact []
    ["h".toList, "e".toList, "l".toList, "l".toList, "o".toList, "XY".toList] 5
    (by decide) (by decide)
  have t2 := claim_C2_content_length_exact "h".toList ["e".toList] 5 (by decide) (by decide)
  exact ⟨t1.1, t1.2.1.trans (by decide), t2.2.1.trans (by decide)⟩

/-! ## Claim theorems: chunked relay (C1) -/

/-- Whatever the fill loop reads it forwards: its outcome extends the client
stream by exactly the chunks it consumed. -/
theorem fillTo_spec (needed : Nat) :
    ∀ (chunks : Chunks) (buffer client : Bytes),
      (∀ out, fillTo needed chunks buffer client = .inl out →
        ∃ k, out.rest = chunks.drop k ∧ out.client = client ++ (chunks.take k).flatten) ∧
      (∀ chunks' buffer' client',
        fillTo needed chunks buffer client = .inr (chunks', buffer', client') →
        ∃ k, chunks' = chunks.drop k ∧ buffer' = buffer ++ (chunks.take k).flatten ∧
          client' = client ++ (chunks.take k).flatten) := by
  intro chunks
  induction chunks with
  | nil =>
    intro buffer client
    constructor
    · intro out h
      unfold fillTo at h
      split at h
      · cases h
        exact ⟨0, by simp⟩
      · cases h
    · intro chunks' buffer' client' h
      unfold fillTo at h
      split at h
      · cases h
      · cases h
        exact ⟨0, by simp⟩
  | cons c rest ih =>
    intro buffer client
    constructor
    · intro out h
      unfold fillTo at h
      split at h
      · split at h
        · cases h
          exact ⟨0, by simp⟩
        · obtain ⟨k, h1, h2⟩ := (ih (buffer ++ c) (client ++ c)).1 out h
          refine ⟨k + 1, ?_, ?_⟩
          · simp [h1]
          · simp [h2]
      · cases h
    · intro chunks' buffer' client' h
      unfold fillTo at h
      split at h
      · split at h
        · cases h
        · obtain ⟨k, h1, h2, h3⟩ := (ih (buffer ++ c) (client ++ c)).2 chunks' buffer' client' h
          refine ⟨k + 1, ?_, ?_, ?_⟩
          · simp [h1]
          · simp [h2]
          · simp [h3]
      · cases h
        exact ⟨0, by simp⟩

/-- Whatever the trailer loop reads it forwards. -/
theorem relayTrailer_spec (after_line : Nat) :
    ∀ (chunks : Chunks) (buffer client : Bytes),
      ∃ k, (relayTrailer after_line chunks buffer client).rest = chunks.drop k ∧
        (relayTrailer after_line chunks buffer client).client
          = client ++ (chunks.take k).flatten := by
  intro chunks
  induction chunks with
  | nil =>
    intro buffer client
    unfold relayTrailer
    split
    · exact ⟨0, by simp⟩
    · exact ⟨0, by simp⟩
  | cons c rest ih =>
    intro buffer client
    unfold relayTrailer
    split
    · exact ⟨0, by simp⟩
    · split
      · exact ⟨0, by simp⟩
      · obtain ⟨k, h1, h2⟩ := ih (buffer ++ c) (client ++ c)
        refine ⟨k + 1, ?_, ?_⟩
        · simp [h1]
        · simp [h2]

/-- The chunked relay forwards the upstream's raw byte stream verbatim:
whenever the main loop ends (success or failure), the client has received the
initial stream plus exactly the reads that were consumed, unchanged. -/
theorem relayMain_forwards :
    ∀ (fuel : Nat) (chunks : Chunks) (buffer client : Bytes) (parse_pos : Nat)
      (out : RelayOut), relayMain fuel chunks buffer client parse_pos = some out →
      ∃ k, out.rest = chunks.drop k ∧ out.client = client ++ (chunks.take k).flatten := by
  intro fuel
  induction fuel with
  | zero => intro chunks buffer client pos out h; cases h
  | succ fuel ih =>
    intro chunks buffer client pos out h
    simp only [relayMain] at h
    split at h
    · -- no size line yet: read another block
      split at h
      · -- upstream closed
        cases h
        exact ⟨0, by simp⟩
      · -- one more read
        rename_i c rest
        split at h
        · cases h
          exact ⟨0, by simp⟩
        · obtain ⟨k, h1, h2⟩ := ih rest (buffer ++ c) (client ++ c) pos out h
          refine ⟨k + 1, ?_, ?_⟩
          · simp [h1]
          · simp [h2]
    · -- size line found
      split at h
      · -- invalid chunk size
        cases h
        exact ⟨0, by simp⟩
      · split at h
        · -- zero-size chunk: trailer loop
          cases h
          exact relayTrailer_spec _ chunks buffer client
        · -- positive chunk: fill, then continue past it
          split at h
          · rename_i hfill
            cases h
            exact (fillTo_spec _ chunks buffer client).1 _ hfill
          · rename_i chunks2 buffer2 client2 hfill
            obtain ⟨k1, hk1, hb1, hc1⟩ :=
              (fillTo_spec _ chunks buffer client).2 chunks2 buffer2 client2 hfill
            obtain ⟨k2, h1, h2⟩ := ih chunks2 buffer2 client2 _ out h
            refine ⟨k1 + k2, ?_, ?_⟩
            · rw [h1, hk1, List.drop_drop]
            · rw [h2, hc1, List.take_add, List.flatten_append, ← List.append_assoc, hk1]

/-- C1: the relay engine does forward the upstream's raw byte stream verbatim
(first conjunct: on any outcome the client stream is the body prefix plus
exactly the consumed reads, unchanged), but the claim's success condition
fails on the code: for the spec's own body `4\r\nWiki\r\n5\r\npedia\r\n0\r\n\r\n`
`relay_chunked` returns `UnexpectedEof`, not success, because the trailer scan
(handler.rs:388-390) looks for `\r\n\r\n` only strictly after the zero-size
chunk line's own CRLF, so the canonical terminator is never recognised —
whether the body arrives as one read after the head or inside the captured
body prefix. -/
theorem claim_C1_chunked_relay :
    (∀ ( body_prefix : Bytes) (chunks : Chunks) (fuel : Nat) (out : RelayOut),
      relay_chunked body_prefix chunks fuel = some out →
      ∃ k, out.rest = chunks.drop k ∧
        out.client = body_prefix ++ (chunks.take k).flatten) ∧
    relay_chunked [] [wikiBody] 50
      = some { result := .error (.unexpectedEof "chunked eof"), client := wikiBody
               rest := [] } ∧
    relay_chunked wikiBody [] 50
      = some { result := .error (.unexpectedEof "chunked eof"), client := wikiBody
               rest := [] } := by
  refine ⟨?_, by decide, by decide⟩
  intro body_prefix chunks fuel out h
  exact relayMain_forwards fuel chunks body_prefix body_prefix 0 out h

/-- Witness for C1's verbatim-forwarding conjunct at the concrete failing
run: the whole raw stream reached the client before the failure. -/
theorem claim_C1_witness :
    ∃ k, ([] : Chunks) = ([wikiBody] : Chunks).drop k ∧
      wikiBody = [] ++ (([wikiBody] : Chunks).take k).flatten :=
  claim_C1_chunked_relay.1 [] [wikiBody] 50
    { result := .error (.unexpectedEof "chunked eof"), client := wikiBody, rest := [] }
    (by decide)

/-! ## Claim theorems: response-info parsing (C7) -/

/-- The lowered, trimmed value a header line contributes under `key`, if its
(lowered, trimmed) name equals `key` — the claim's notion of "a `key` header's
value". -/
def headerVal (key : Bytes) (line : Bytes) : Option Bytes :=
  (splitOnceColon line).bind fun p =>
    if lowerAscii (trimWs p.1) = key then some (lowerAscii (trimWs p.2)) else none

/-- All values the lines contribute under `key`, in order. -/
def headerValsIn (key : Bytes) (ls : List Bytes) : List Bytes :=
  ls.filterMap (headerVal key)

/-- The values of the `Connection` headers of a response head. -/
def connValues (header : Bytes) : List Bytes :=
  headerValsIn "connection".toList (linesOf header).tail

/-- The values of the `Transfer-Encoding` headers of a response head. -/
def teValues (header : Bytes) : List Bytes :=
  headerValsIn "transfer-encoding".toList (linesOf header).tail

/-- Does the status line open with `HTTP/1.0`? -/
def isHTTP10 (header : Bytes) : Bool :=
  "HTTP/1.0".toList.isPrefixOf ((linesOf header).headD [])

theorem getLast?_cons_or {α : Type} (a : α) (l : List α) (o : Option α) :
    ((a :: l).getLast?).or o = (l.getLast?).or (some a) := by
  cases l with
  | nil => rfl
  | cons x xs => rw [List.getLast?_cons_cons]; cases h : (x :: xs).getLast? with
    | none =>
      rw [List.getLast?_eq_none_iff] at h
      cases h
    | some y => rfl

/-- The `Connection` accumulator of the header scan ends at the last
`Connection` value, or at its initial value when none occurs. -/
theorem scanHeaders_conn :
    ∀ (ls : List Bytes) (conn : Option Bytes) (cl : Option Nat) (ch : Bool),
      (scanHeaders ls conn cl ch).1 =
        ((headerValsIn "connection".toList ls).getLast?).or conn := by
  intro ls
  induction ls with
  | nil => intro conn cl ch; rfl
  | cons line rest ih =>
    intro conn cl ch
    show (match splitOnceColon line with
      | none => scanHeaders rest conn cl ch
      | some (k, v) =>
        let key := lowerAscii (trimWs k)
        let value := lowerAscii (trimWs v)
        if key = "connection".toList then scanHeaders rest (some value) cl ch
        else if key = "content-length".toList then scanHeaders rest conn (parseUsize value) ch
        else if key = "transfer-encoding".toList then
          scanHeaders rest conn cl (containsSub "chunked".toList value || ch)
        else scanHeaders rest conn cl ch).1 = _
    cases hsp : splitOnceColon line with
    | none =>
      rw [ih]
      have hv : headerVal "connection".toList line = none := by
        unfold headerVal
        rw [hsp]
        rfl
      unfold headerValsIn
      rw [List.filterMap_cons_none hv]
    | some p =>
      obtain ⟨k, v⟩ := p
      show (if lowerAscii (trimWs k) = "connection".toList then
          scanHeaders rest (some (lowerAscii (trimWs v))) cl ch
        else if lowerAscii (trimWs k) = "content-length".toList then
          scanHeaders rest conn (parseUsize (lowerAscii (trimWs v))) ch
        else if lowerAscii (trimWs k) = "transfer-encoding".toList then
          scanHeaders rest conn cl (containsSub "chunked".toList (lowerAscii (trimWs v)) || ch)
        else scanHeaders rest conn cl ch).1 = _
      by_cases hc : lowerAscii (trimWs k) = "connection".toList
      · rw [if_pos hc, ih]
        have hv : headerVal "connection".toList line = some (lowerAscii (trimWs v)) := by
          unfold headerVal
          rw [hsp]
          simp only [Option.some_bind]
          rw [if_pos hc]
        unfold headerValsIn
        rw [List.filterMap_cons_some hv]
        exact (getLast?_cons_or _ _ _).symm
      · have hv : headerVal "connection".toList line = none := by
          unfold headerVal
          rw [hsp]
          simp only [Option.some_bind]
          rw [if_neg hc]
        have hrest : (headerValsIn "connection".toList (line :: rest))
            = headerValsIn "connection".toList rest := by
          unfold headerValsIn
          rw [List.filterMap_cons_none hv]
        rw [hrest, if_neg hc]
        by_cases h2 : lowerAscii (trimWs k) = "content-length".toList
        · rw [if_pos h2]
          exact ih ..
        · rw [if_neg h2]
          by_cases h3 : lowerAscii (trimWs k) = "transfer-encoding".toList
          · rw [if_pos h3]
            exact ih ..
          · rw [if_neg h3]
            exact ih ..

/-- The `chunked` flag ends true iff it started true or some
`Transfer-Encoding` value contains `chunked`. -/
theorem scanHeaders_chunked :
    ∀ (ls : List Bytes) (conn : Option Bytes) (cl : Option Nat) (ch : Bool),
      (scanHeaders ls conn cl ch).2.2 =
        (ch || (headerValsIn "transfer-encoding".toList ls).any
          (containsSub "chunked".toList)) := by
  intro ls
  induction ls with
  | nil => intro conn cl ch; simp [scanHeaders, headerValsIn]
  | cons line rest ih =>
    intro conn cl ch
    show (match splitOnceColon line with
      | none => scanHeaders rest conn cl ch
      | some (k, v) =>
        let key := lowerAscii (trimWs k)
        let value := lowerAscii (trimWs v)
        if key = "connection".toList then scanHeaders rest (some value) cl ch
        else if key = "content-length".toList then scanHeaders rest conn (parseUsize value) ch
        else if key = "transfer-encoding".toList then
          scanHeaders rest conn cl (containsSub "chunked".toList value || ch)
        else scanHeaders rest conn cl ch).2.2 = _
    cases hsp : splitOnceColon line with
    | none =>
      rw [ih]
      have : headerVal "transfer-encoding".toList line = none := by
        unfold headerVal
        rw [hsp]
        rfl
      unfold headerValsIn
      rw [List.filterMap_cons_none this]
    | some p =>
      obtain ⟨k, v⟩ := p
      show (if lowerAscii (trimWs k) = "connection".toList then
          scanHeaders rest (some (lowerAscii (trimWs v))) cl ch
        else if lowerAscii (trimWs k) = "content-length".toList then
          scanHeaders rest conn (parseUsize (lowerAscii (trimWs v))) ch
        else if lowerAscii (trimWs k) = "transfer-encoding".toList then
          scanHeaders rest conn cl (containsSub "chunked".toList (lowerAscii (trimWs v)) || ch)
        else scanHeaders rest conn cl ch).2.2 = _
      by_cases hc : lowerAscii (trimWs k) = "connection".toList
      · have hv : headerVal "transfer-encoding".toList line = none := by
          unfold headerVal
          rw [hsp]
          simp only [Option.some_bind]
          rw [if_neg (by rw [hc]; decide)]
        rw [if_pos hc, ih]
        unfold headerValsIn
        rw [List.filterMap_cons_none hv]
      · rw [if_neg hc]
        by_cases h2 : lowerAscii (trimWs k) = "content-length".toList
        · have hv : headerVal "transfer-encoding".toList line = none := by
            unfold headerVal
            rw [hsp]
            simp only [Option.some_bind]
            rw [if_neg (by rw [h2]; decide)]
          rw [if_pos h2, ih]
          unfold headerValsIn
          rw [List.filterMap_cons_none hv]
        · rw [if_neg h2]
          by_cases h3 : lowerAscii (trimWs k) = "transfer-encoding".toList
          · have hv : headerVal "transfer-encoding".toList line
                = some (lowerAscii (trimWs v)) := by
              unfold headerVal
              rw [hsp]
              simp only [Option.some_bind]
              rw [if_pos h3]
            rw [if_pos h3, ih]
            unfold headerValsIn
            rw [List.filterMap_cons_some hv]
            rw [List.any_cons]
            cases containsSub "chunked".toList (lowerAscii (trimWs v)) <;> simp
          · have hv : headerVal "transfer-encoding".toList line = none := by
              unfold headerVal
              rw [hsp]
              simp only [Option.some_bind]
              rw [if_neg h3]
            rw [if_neg h3, ih]
            unfold headerValsIn
            rw [List.filterMap_cons_none hv]

/-- C7: `chunked` is true iff some `Transfer-Encoding` value contains
`chunked` (case-insensitively); for an `HTTP/1.0` status line `keep_alive` is
true only if a `Connection` value contains `keep-alive`; and with at most one
`Connection` header (the claim's "a Connection header"), `keep_alive` is
exactly "contains keep-alive" under HTTP/1.0 and exactly "no Connection value
contains close" otherwise. -/
theorem claim_C7_parse_response_info (header : Bytes) :
    ((parse_response_info header).chunked = true ↔
      ∃ v ∈ teValues header, containsSub "chunked".toList v = true) ∧
    (isHTTP10 header = true → (parse_response_info header).keep_alive = true →
      ∃ v ∈ connValues header, containsSub "keep-alive".toList v = true) ∧
    ((connValues header).length ≤ 1 →
      (isHTTP10 header = true →
        ((parse_response_info header).keep_alive = true ↔
          ∃ v ∈ connValues header, containsSub "keep-alive".toList v = true)) ∧
      (isHTTP10 header = false →
        ((parse_response_info header).keep_alive = true ↔
          ¬ ∃ v ∈ connValues header, containsSub "close".toList v = true))) := by
  have hch : (parse_response_info header).chunked
      = (scanHeaders (linesOf header).tail none none false).2.2 := rfl
  have hka : (parse_response_info header).keep_alive
      = (if isHTTP10 header then
          (((scanHeaders (linesOf header).tail none none false).1).map
            (containsSub "keep-alive".toList)).getD false
        else
          ! (((scanHeaders (linesOf header).tail none none false).1).map
            (containsSub "close".toList)).getD false) := rfl
  have hconn : (scanHeaders (linesOf header).tail none none false).1
      = (connValues header).getLast? := by
    rw [scanHeaders_conn]
    show _ = ((headerValsIn "connection".toList (linesOf header).tail).getLast?)
    cases (headerValsIn "connection".toList (linesOf header).tail).getLast? <;> rfl
  refine ⟨?_, ?_, ?_⟩
  · rw [hch, scanHeaders_chunked]
    show (false || (teValues header).any (containsSub "chunked".toList)) = true ↔ _
    rw [Bool.false_or, List.any_eq_true]
  · intro h10 htrue
    rw [hka, h10, if_pos rfl, hconn] at htrue
    cases hl : (connValues header).getLast? with
    | none =>
      rw [hl] at htrue
      cases htrue
    | some v =>
      rw [hl] at htrue
      simp only [Option.map_some', Option.getD_some] at htrue
      exact ⟨v, List.mem_of_mem_getLast? hl, htrue⟩
  · intro hle
    have hcases : connValues header = [] ∨ ∃ v, connValues header = [v] := by
      cases hv : connValues header with
      | nil => exact Or.inl rfl
      | cons x xs =>
        cases xs with
        | nil => exact Or.inr ⟨x, rfl⟩
        | cons y ys =>
          rw [hv] at hle
          simp at hle
    rcases hcases with hv | ⟨v, hv⟩
    · constructor
      · intro h10
        rw [hka, h10, if_pos rfl, hconn, hv]
        simp
      · intro h10
        rw [hka, h10]
        rw [if_neg (by simp), hconn, hv]
        simp
    · constructor
      · intro h10
        rw [hka, h10, if_pos rfl, hconn, hv]
        simp
      · intro h10
        rw [hka, h10]
        rw [if_neg (by simp), hconn, hv]
        simp

/-- Witness for C7 at a concrete `Connection: close` HTTP/1.1 response. -/
theorem claim_C7_witness :
    (parse_response_info
        "HTTP/1.1 200 OK\r\nConnection: close\r\n\r\n".toList).keep_alive = true ↔
      ¬ ∃ v ∈ connValues "HTTP/1.1 200 OK\r\nConnection: close\r\n\r\n".toList,
        containsSub "close".toList v = true :=
  (((claim_C7_parse_response_info
      "HTTP/1.1 200 OK\r\nConnection: close\r\n\r\n".toList).2.2 (by decide)).2 (by decide))

/-! ## Claim theorems: request-line rewrite (C8) -/

/-- Scanning a whitespace-free token accumulates it whole. -/
theorem wordsGo_token :
    ∀ (t r cur : Bytes), (∀ c ∈ t, isWsp c = false) →
      wordsGo (t ++ r) cur = wordsGo r (t.reverse ++ cur) := by
  intro t
  induction t with
  | nil => intro r cur _; rfl
  | cons c cs ih =>
    intro r cur h
    have hc : isWsp c = false := h c (List.mem_cons_self ..)
    show (if isWsp c then _ else wordsGo (cs ++ r) (c :: cur)) = _
    rw [hc]
    simp only [Bool.false_eq_true, if_false]
    rw [ih r (c :: cur) fun c2 hc2 => h c2 (List.mem_cons_of_mem _ hc2)]
    simp

/-- A space ends a non-empty token. -/
theorem wordsGo_space (r cur : Bytes) (h : cur ≠ []) :
    wordsGo (' ' :: r) cur = cur.reverse :: wordsGo r [] := by
  show (if isWsp ' ' then if cur = [] then wordsGo r [] else cur.reverse :: wordsGo r []
    else _) = _
  rw [show isWsp ' ' = true from rfl, if_pos rfl, if_neg h]

/-- A single trailing whitespace-free token is emitted whole. -/
theorem wordsGo_single (v : Bytes) (hv : v ≠ []) (hvw : ∀ c ∈ v, isWsp c = false) :
    wordsGo v [] = [v] := by
  have h := wordsGo_token v [] [] hvw
  rw [List.append_nil] at h
  rw [h, List.append_nil]
  show (if v.reverse = [] then [] else [v.reverse.reverse]) = [v]
  rw [if_neg (by simp [hv])]
  simp

/-- `split_whitespace` of a well-formed request line is its three tokens. -/
theorem words_three (m p v : Bytes) (hm : m ≠ []) (hp : p ≠ []) (hv : v ≠ [])
    (hmw : ∀ c ∈ m, isWsp c = false) (hpw : ∀ c ∈ p, isWsp c = false)
    (hvw : ∀ c ∈ v, isWsp c = false) :
    words (m ++ (' ' :: (p ++ (' ' :: v)))) = [m, p, v] := by
  unfold words
  rw [wordsGo_token m (' ' :: (p ++ (' ' :: v))) [] hmw]
  rw [List.append_nil, wordsGo_space _ _ (by simp [hm])]
  rw [List.reverse_reverse]
  rw [wordsGo_token p (' ' :: v) [] hpw]
  rw [List.append_nil, wordsGo_space _ _ (by simp [hp]), List.reverse_reverse]
  rw [wordsGo_single v hv hvw]

/-- `findSeq` skips a block free of the pattern's first character. -/
theorem findSeq_crlf_append (l r : Bytes) (h : ∀ c ∈ l, c ≠ '\r') :
    findSeq crlf (l ++ r) = (findSeq crlf r).map (· + l.length) := by
  induction l with
  | nil => simp
  | cons c cs ih =>
    have hc : c ≠ '\r' := h c (List.mem_cons_self ..)
    show (if crlf.isPrefixOf (c :: (cs ++ r)) then some 0
      else (findSeq crlf (cs ++ r)).map (· + 1)) = _
    rw [if_neg (by
      intro hpre
      have h2 : ('\r' == c && ['\n'].isPrefixOf (cs ++ r)) = true := hpre
      simp at h2
      exact hc h2.1.symm)]
    rw [ih fun c2 hc2 => h c2 (List.mem_cons_of_mem _ hc2)]
    cases findSeq crlf r with
    | none => rfl
    | some n =>
      show some (n + cs.length + 1) = some (n + (cs.length + 1))
      rw [Nat.add_assoc]

/-- `replacen(pat, rep, 1)` on a string starting with `pat` replaces that
first occurrence only and keeps the remainder verbatim. -/
theorem replaceFirst_prefix (pat rep s : Bytes) :
    replaceFirst pat rep (pat ++ s) = rep ++ s := by
  cases pat with
  | nil =>
    cases s with
    | nil => simp [replaceFirst]
    | cons c cs =>
      show (if List.isPrefixOf [] (c :: cs) then rep ++ (c :: cs).drop (0 : Nat)
        else c :: replaceFirst [] rep cs) = rep ++ (c :: cs)
      rw [if_pos (by rw [List.isPrefixOf_iff_prefix]; exact List.nil_prefix)]
      rfl
  | cons a pat' =>
    show (if (a :: pat').isPrefixOf (a :: (pat' ++ s)) then
        rep ++ (a :: (pat' ++ s)).drop (a :: pat').length
      else a :: replaceFirst (a :: pat') rep (pat' ++ s)) = rep ++ s
    rw [if_pos (by
      rw [List.isPrefixOf_iff_prefix]
      exact List.prefix_append (a :: pat') s)]
    show rep ++ (pat' ++ s).drop pat'.length = rep ++ s
    rw [List.drop_left]

/-- A whitespace-free token holds no carriage return. -/
theorem noWsp_ne_cr {t : Bytes} (h : ∀ c ∈ t, isWsp c = false) : ∀ c ∈ t, c ≠ '\r' := by
  intro c hc he
  have := h c hc
  rw [he] at this
  simp [isWsp] at this

/-- C8: a well-formed request line whose path is `route ++ suffix` is
rewritten to path `/ ++ suffix` (first occurrence of the route only), the
bytes after the request line forwarded unchanged; a buffer with no CRLF, or
whose first line has fewer than three whitespace tokens (missing method or
version), is forwarded verbatim. -/
theorem claim_C8_rewrite_request_line :
    (∀ (m p suf v rest : Bytes),
      p ++ suf ≠ [] → m ≠ [] → v ≠ [] →
      (∀ c ∈ m, isWsp c = false) → (∀ c ∈ p, isWsp c = false) →
      (∀ c ∈ suf, isWsp c = false) → (∀ c ∈ v, isWsp c = false) →
      rewrite_request_line
          ((m ++ (' ' :: ((p ++ suf) ++ (' ' :: v)))) ++ ('\r' :: '\n' :: rest)) p
        = (m ++ (' ' :: (('/' :: suf) ++ (' ' :: v)))) ++ ('\r' :: '\n' :: rest)) ∧
    (∀ (request route : Bytes), findSeq crlf request = none →
      rewrite_request_line request route = request) ∧
    (∀ (request route : Bytes) (line_end : Nat),
      findSeq crlf request = some line_end →
      (words (request.take line_end)).length < 3 →
      rewrite_request_line request route = request) := by
  refine ⟨?_, ?_, ?_⟩
  · intro m p suf v rest hpath hm hv hmw hpw hsw hvw
    have hLnr : ∀ c ∈ m ++ (' ' :: ((p ++ suf) ++ (' ' :: v))), c ≠ '\r' := by
      intro c hc
      simp only [List.mem_append, List.mem_cons] at hc
      rcases hc with hc | hc | (hc | hc) | (hc | hc)
      · exact noWsp_ne_cr hmw c hc
      · rw [hc]; decide
      · exact noWsp_ne_cr hpw c hc
      · exact noWsp_ne_cr hsw c hc
      · rw [hc]; decide
      · exact noWsp_ne_cr hvw c hc
    have hfind0 : findSeq crlf ('\r' :: '\n' :: rest) = some 0 := by
      show (if crlf.isPrefixOf ('\r' :: '\n' :: rest) then some 0
        else (findSeq crlf ('\n' :: rest)).map (· + 1)) = some 0
      rw [if_pos (by rw [List.isPrefixOf_iff_prefix]; exact ⟨rest, rfl⟩)]
    have hfind : findSeq crlf
        ((m ++ (' ' :: ((p ++ suf) ++ (' ' :: v)))) ++ ('\r' :: '\n' :: rest))
        = some (m ++ (' ' :: ((p ++ suf) ++ (' ' :: v)))).length := by
      rw [findSeq_crlf_append _ _ hLnr, hfind0]
      simp
    have htake := List.take_left (m ++ (' ' :: ((p ++ suf) ++ (' ' :: v))))
      ('\r' :: '\n' :: rest)
    have hdrop := List.drop_left (m ++ (' ' :: ((p ++ suf) ++ (' ' :: v))))
      ('\r' :: '\n' :: rest)
    have hwords : words (m ++ (' ' :: ((p ++ suf) ++ (' ' :: v)))) = [m, p ++ suf, v] :=
      words_three m (p ++ suf) v hm hpath hv hmw
        (fun c hc => (List.mem_append.mp hc).elim (hpw c) (hsw c)) hvw
    unfold rewrite_request_line
    rw [hfind]
    show (if (words (((m ++ (' ' :: ((p ++ suf) ++ (' ' :: v))))
          ++ ('\r' :: '\n' :: rest)).take
          (m ++ (' ' :: ((p ++ suf) ++ (' ' :: v)))).length)).getD 0 [] = []
        ∨ (words (((m ++ (' ' :: ((p ++ suf) ++ (' ' :: v))))
          ++ ('\r' :: '\n' :: rest)).take
          (m ++ (' ' :: ((p ++ suf) ++ (' ' :: v)))).length)).getD 2 [] = [] then
        (m ++ (' ' :: ((p ++ suf) ++ (' ' :: v)))) ++ ('\r' :: '\n' :: rest)
      else _ ++ (((m ++ (' ' :: ((p ++ suf) ++ (' ' :: v))))
        ++ ('\r' :: '\n' :: rest)).drop
        (m ++ (' ' :: ((p ++ suf) ++ (' ' :: v)))).length)) = _
    rw [htake, hdrop, hwords]
    show (if m = [] ∨ v = [] then _ else
      (m ++ [' '] ++ (if p.isPrefixOf (p ++ suf) then replaceFirst p ['/'] (p ++ suf)
        else p ++ suf) ++ [' '] ++ v) ++ ('\r' :: '\n' :: rest)) = _
    rw [if_neg (by simp [hm, hv])]
    rw [if_pos (by rw [List.isPrefixOf_iff_prefix]; exact List.prefix_append p suf)]
    rw [ replaceFirst_prefix]
    simp
  · intro request route h
    unfold rewrite_request_line
    rw [h]
  · intro request route line_end h hlt
    unfold rewrite_request_line
    rw [h]
    show (if (words (request.take line_end)).getD 0 [] = []
        ∨ (words (request.take line_end)).getD 2 [] = [] then request else _) = request
    rw [if_pos (Or.inr (List.getD_eq_default _ _ (by omega)))]

/-- Witness for C8 at the spec's example route `/api`. -/
theorem claim_C8_witness :
    rewrite_request_line
        (("GET".toList ++ (' ' :: (("/api".toList ++ "/x".toList)
          ++ (' ' :: "HTTP/1.1".toList)))) ++ ('\r' :: '\n' :: "Host: h\r\n\r\n".toList))
        "/api".toList
      = ("GET".toList ++ (' ' :: (('/' :: "/x".toList) ++ (' ' :: "HTTP/1.1".toList))))
          ++ ('\r' :: '\n' :: "Host: h\r\n\r\n".toList) :=
  claim_C8_rewrite_request_line.1 "GET".toList "/api".toList "/x".toList "HTTP/1.1".toList
    "Host: h\r\n\r\n".toList (by decide) (by decide) (by decide) (by decide) (by decide)
    (by decide) (by decide)

/-! ## Claim theorems: static file target (C10) -/

theorem splitNl_ne_nil (l : Bytes) : splitNl l ≠ [] := by
  cases l with
  | nil => simp [splitNl]
  | cons c cs =>
    show (if c = '\n' then [] :: splitNl cs
      else match splitNl cs with
        | [] => [[c]]
        | s :: ss => (c :: s) :: ss) ≠ []
    by_cases hc : c = '\n'
    · rw [if_pos hc]; simp
    · rw [if_neg hc]
      cases splitNl cs <;> simp

theorem splitNl_append (s : Bytes) (h : ∀ c ∈ s, c ≠ '\n') (r : Bytes) :
    splitNl (s ++ '\n' :: r) = s :: splitNl r := by
  induction s with
  | nil =>
    show (if '\n' = '\n' then [] :: splitNl r else _) = [] :: splitNl r
    rw [if_pos rfl]
  | cons c cs ih =>
    have hc : c ≠ '\n' := h c (List.mem_cons_self ..)
    show (if c = '\n' then [] :: splitNl (cs ++ '\n' :: r)
      else match splitNl (cs ++ '\n' :: r) with
        | [] => [[c]]
        | s :: ss => (c :: s) :: ss) = (c :: cs) :: splitNl r
    rw [if_neg hc, ih fun c2 hc2 => h c2 (List.mem_cons_of_mem _ hc2)]

/-- The first element of `lines` of a well-formed head line plus CRLF plus
anything is that line (with its `\r` stripped). -/
theorem linesOf_head (l1 rest : Bytes) (h : ∀ c ∈ l1, c ≠ '\n') :
    (linesOf (l1 ++ '\r' :: '\n' :: rest)).headD [] = stripCr (l1 ++ ['\r']) := by
  have hsplit : splitNl (l1 ++ '\r' :: '\n' :: rest) = (l1 ++ ['\r']) :: splitNl rest := by
    have h2 := splitNl_append (l1 ++ ['\r']) (by
      intro c hc
      rcases List.mem_append.mp hc with hc | hc
      · exact h c hc
      · simp at hc
        rw [hc]
        decide) rest
    rw [List.append_assoc] at h2
    exact h2
  unfold linesOf
  rw [hsplit]
  show (List.map stripCr (if (l1 ++ '\r' :: '\n' :: rest).getLast? = some '\n'
      ∨ l1 ++ '\r' :: '\n' :: rest = [] then
      ((l1 ++ ['\r']) :: splitNl rest).dropLast
    else (l1 ++ ['\r']) :: splitNl rest)).headD [] = stripCr (l1 ++ ['\r'])
  by_cases hcond : (l1 ++ '\r' :: '\n' :: rest).getLast? = some '\n'
      ∨ l1 ++ '\r' :: '\n' :: rest = []
  · rw [if_pos hcond]
    obtain ⟨y, ys, hys⟩ : ∃ y ys, splitNl rest = y :: ys := by
      cases hs : splitNl rest with
      | nil => exact absurd hs (splitNl_ne_nil rest)
      | cons y ys => exact ⟨y, ys, rfl⟩
    rw [hys]
    rfl
  · rw [if_neg hcond]
    rfl

/-- C10: for a well-formed request line, the static responder's file path is
`root_path ++ "/" ++ (path minus its leading byte)` with no normalisation,
query stripping or containment check — `..` segments are passed through to
the filesystem — and the bare path `/` maps to `root_path ++ "/index.html"`. -/
theorem claim_C10_static_path :
    (∀ (m p v rest root : Bytes),
      m ≠ [] → p ≠ [] → v ≠ [] →
      (∀ c ∈ m, isWsp c = false) → (∀ c ∈ p, isWsp c = false) →
      (∀ c ∈ v, isWsp c = false) →
      static_target ((m ++ (' ' :: (p ++ (' ' :: v)))) ++ ('\r' :: '\n' :: rest)) root
        = root ++ '/' :: (if p = "/".toList then "index.html".toList else p.drop 1)) ∧
    static_target "GET /../etc/passwd HTTP/1.1\r\n\r\n".toList "/var/www".toList
      = "/var/www/../etc/passwd".toList ∧
    static_target "GET / HTTP/1.1\r\n\r\n".toList "/var/www".toList
      = "/var/www/index.html".toList := by
  refine ⟨?_, by decide, by decide⟩
  intro m p v rest root hm hp hv hmw hpw hvw
  have hl1n : ∀ c ∈ m ++ (' ' :: (p ++ (' ' :: v))), c ≠ '\n' := by
    intro c hc
    simp only [List.mem_append, List.mem_cons] at hc
    rcases hc with hc | hc | hc | (hc | hc)
    · intro he
      have := hmw c hc
      rw [he] at this
      simp [isWsp] at this
    · rw [hc]; decide
    · intro he
      have := hpw c hc
      rw [he] at this
      simp [isWsp] at this
    · rw [hc]; decide
    · intro he
      have := hvw c hc
      rw [he] at this
      simp [isWsp] at this
  have hhead : (linesOf ((m ++ (' ' :: (p ++ (' ' :: v)))) ++ ('\r' :: '\n' :: rest))).headD []
      = m ++ (' ' :: (p ++ (' ' :: v))) := by
    have h2 := linesOf_head (m ++ (' ' :: (p ++ (' ' :: v)))) rest hl1n
    rw [show (m ++ (' ' :: (p ++ (' ' :: v)))) ++ '\r' :: '\n' :: rest
      = (m ++ (' ' :: (p ++ (' ' :: v)))) ++ ('\r' :: '\n' :: rest) from rfl] at h2
    rw [h2]
    unfold stripCr
    rw [if_pos (by rw [List.getLast?_concat])]
    rw [List.dropLast_concat]
  have hwords := words_three m p v hm hp hv hmw hpw hvw
  unfold static_target
  rw [hhead]
  show root ++ ['/'] ++ (if (words (m ++ (' ' :: (p ++ (' ' :: v))))).getD 1 "/".toList
        = "/".toList then "index.html".toList
      else List.drop 1 ((words (m ++ (' ' :: (p ++ (' ' :: v))))).getD 1 "/".toList)) = _
  rw [hwords, List.append_assoc]
  rfl

/-- Witness for C10 with a traversal path: the target escapes the root. -/
theorem claim_C10_witness :
    static_target (("GET".toList ++ (' ' :: ("/../secret".toList
        ++ (' ' :: "HTTP/1.1".toList)))) ++ ('\r' :: '\n' :: [])) "/var/www".toList
      = "/var/www".toList ++ '/' :: (if "/../secret".toList = "/".toList
        then "index.html".toList else "/../secret".toList.drop 1) :=
  claim_C10_static_path.1 "GET".toList "/../secret".toList "HTTP/1.1".toList []
    "/var/www".toList (by decide) (by decide) (by decide) (by decide) (by decide)
    (by decide)

/-! ## Claim theorems: response head reading (C9) -/

/-- `findSeq` skips a block that misses the pattern's first character. -/
theorem findSeq_head_append (p0 : Char) (pat' : Bytes) (l r : Bytes)
    (h : ∀ c ∈ l, c ≠ p0) :
    findSeq (p0 :: pat') (l ++ r) = (findSeq (p0 :: pat') r).map (· + l.length) := by
  induction l with
  | nil => simp
  | cons c cs ih =>
    have hc : c ≠ p0 := h c (List.mem_cons_self ..)
    show (if (p0 :: pat').isPrefixOf (c :: (cs ++ r)) then some 0
      else (findSeq (p0 :: pat') (cs ++ r)).map (· + 1)) = _
    rw [if_neg (by
      intro hpre
      have h2 : (p0 == c && pat'.isPrefixOf (cs ++ r)) = true := hpre
      simp at h2
      exact hc h2.1.symm)]
    rw [ih fun c2 hc2 => h c2 (List.mem_cons_of_mem _ hc2)]
    cases findSeq (p0 :: pat') r with
    | none => rfl
    | some n =>
      show some (n + cs.length + 1) = some (n + (cs.length + 1))
      rw [Nat.add_assoc]

/-- Absence of the pattern in a longer buffer implies absence in its prefix. -/
theorem findSeq_append_none {pat l r : Bytes} (h : findSeq pat (l ++ r) = none) :
    findSeq pat l = none := by
  induction l with
  | nil =>
    cases pat with
    | nil =>
      exfalso
      rw [List.nil_append] at h
      cases r with
      | nil => exact Option.noConfusion h
      | cons x xs =>
        have h2 : findSeq ([] : Bytes) (x :: xs) = some 0 := by
          show (if List.isPrefixOf [] (x :: xs) then some 0
            else (findSeq [] xs).map (· + 1)) = some 0
          rw [if_pos (by rw [List.isPrefixOf_iff_prefix]; exact List.nil_prefix)]
        rw [h2] at h
        cases h
    | cons p ps => rfl
  | cons c cs ih =>
    show (if pat.isPrefixOf (c :: cs) then some 0 else (findSeq pat cs).map (· + 1)) = none
    have hstep : (if pat.isPrefixOf (c :: (cs ++ r)) then some 0
        else (findSeq pat (cs ++ r)).map (· + 1)) = none := h
    by_cases hpre : pat.isPrefixOf (c :: cs)
    · exfalso
      have hpre2 : pat.isPrefixOf (c :: (cs ++ r)) = true := by
        rw [List.isPrefixOf_iff_prefix] at hpre ⊢
        exact hpre.trans (by
          show c :: cs <+: c :: (cs ++ r)
          exact List.cons_prefix_cons.mpr ⟨rfl, List.prefix_append cs r⟩)
      rw [if_pos hpre2] at hstep
      cases hstep
    · rw [if_neg hpre]
      by_cases hpre2 : pat.isPrefixOf (c :: (cs ++ r))
      · rw [if_pos hpre2] at hstep
        cases hstep
      · rw [if_neg hpre2] at hstep
        have := ih (by
          cases hf : findSeq pat (cs ++ r) with
          | none => rfl
          | some n => rw [hf] at hstep; cases hstep)
        rw [this]
        rfl

/-- One accepting pass of `read_response_head`: read below the cap with no
terminator yet continues on the grown buffer. -/
theorem rrh_step_cont {c : Bytes} (hc : c ≠ []) {buffer : Bytes}
    (hlen : (buffer ++ c).length ≤ 32768)
    (hfind : findSeq crlf2 (buffer ++ c) = none) (rest : Chunks) :
    read_response_head (c :: rest) buffer = read_response_head rest (buffer ++ c) := by
  show (if c = [] then Except.error (.unexpectedEof "upstream closed")
    else if (buffer ++ c).length > 32768 then Except.error (.invalidData "header too large")
    else match find_header_end (buffer ++ c) with
      | some e =>
        .ok { header := (buffer ++ c).take e, body_prefix := (buffer ++ c).drop e
              info := parse_response_info ((buffer ++ c).take e) }
      | none => read_response_head rest (buffer ++ c)) = _
  rw [if_neg hc, if_neg (by omega)]
  unfold find_header_end
  rw [hfind]
  rfl

/-- The failing pass: a read that pushes the buffer over the cap fails with
`header too large` before the terminator is even looked for. -/
theorem rrh_step_large {c : Bytes} (hc : c ≠ []) {buffer : Bytes}
    (hlen : (buffer ++ c).length > 32768) (rest : Chunks) :
    read_response_head (c :: rest) buffer = .error (.invalidData "header too large") := by
  show (if c = [] then Except.error (.unexpectedEof "upstream closed")
    else if (buffer ++ c).length > 32768 then Except.error (.invalidData "header too large")
    else match find_header_end (buffer ++ c) with
      | some e =>
        .ok { header := (buffer ++ c).take e, body_prefix := (buffer ++ c).drop e
              info := parse_response_info ((buffer ++ c).take e) }
      | none => read_response_head rest (buffer ++ c)) = _
  rw [if_neg hc, if_pos hlen]

/-- Success characterisation of `read_response_head`: the result splits the
accumulated reads at the first `\r\n\r\n`, and the accumulated buffer was
within the cap. -/
theorem rrh_ok :
    ∀ (chunks : Chunks) (buffer : Bytes) (h : ResponseHead),
      read_response_head chunks buffer = .ok h →
      ∃ k e, findSeq crlf2 (buffer ++ (chunks.take k).flatten) = some e ∧
        h.header = (buffer ++ (chunks.take k).flatten).take (e + 4) ∧
        h.body_prefix = (buffer ++ (chunks.take k).flatten).drop (e + 4) ∧
        h.info = parse_response_info h.header ∧
        (buffer ++ (chunks.take k).flatten).length ≤ 32768 := by
  intro chunks
  induction chunks with
  | nil => intro buffer h hrun; cases hrun
  | cons c rest ih =>
    intro buffer h hrun
    by_cases hc : c = []
    · rw [show read_response_head (c :: rest) buffer
          = .error (.unexpectedEof "upstream closed") from by
        show (if c = [] then (Except.error (IoErr.unexpectedEof "upstream closed")
            : Except IoErr ResponseHead)
          else if (buffer ++ c).length > 32768 then
            Except.error (.invalidData "header too large")
          else match find_header_end (buffer ++ c) with
            | some e2 =>
              .ok { header := (buffer ++ c).take e2
                    body_prefix := (buffer ++ c).drop e2
                    info := parse_response_info ((buffer ++ c).take e2) }
            | none => read_response_head rest (buffer ++ c)) = _
        rw [if_pos hc]] at hrun
      cases hrun
    · by_cases hlen : (buffer ++ c).length > 32768
      · rw [rrh_step_large hc hlen rest] at hrun
        cases hrun
      · cases hfind : findSeq crlf2 (buffer ++ c) with
        | none =>
          rw [rrh_step_cont hc (by omega) hfind rest] at hrun
          obtain ⟨k, e, h1, h2, h3, h4, h5⟩ := ih (buffer ++ c) h hrun
          rw [List.append_assoc] at h1 h2 h3 h5
          exact ⟨k + 1, e, by
            rw [List.take_succ_cons, List.flatten_cons]
            exact h1, by
            rw [List.take_succ_cons, List.flatten_cons]
            exact h2, by
            rw [List.take_succ_cons, List.flatten_cons]
            exact h3, h4, by
            rw [List.take_succ_cons, List.flatten_cons]
            exact h5⟩
        | some e =>
          rw [show read_response_head (c :: rest) buffer
              = .ok { header := (buffer ++ c).take (e + 4)
                      body_prefix := (buffer ++ c).drop (e + 4)
                      info := parse_response_info ((buffer ++ c).take (e + 4)) } from by
            show (if c = [] then Except.error (.unexpectedEof "upstream closed")
              else if (buffer ++ c).length > 32768 then
                Except.error (.invalidData "header too large")
              else match find_header_end (buffer ++ c) with
                | some e2 =>
                  .ok { header := (buffer ++ c).take e2
                        body_prefix := (buffer ++ c).drop e2
                        info := parse_response_info ((buffer ++ c).take e2) }
                | none => read_response_head rest (buffer ++ c)) = _
            rw [if_neg hc, if_neg hlen]
            unfold find_header_end
            rw [hfind]
            rfl] at hrun
          cases hrun
          refine ⟨1, e, ?_, ?_, ?_, rfl, ?_⟩
          · simp only [List.take_succ_cons, List.take_zero, List.flatten_cons,
              List.flatten_nil, List.append_nil]
            exact hfind
          · simp only [List.take_succ_cons, List.take_zero, List.flatten_cons,
              List.flatten_nil, List.append_nil]
          · simp only [List.take_succ_cons, List.take_zero, List.flatten_cons,
              List.flatten_nil, List.append_nil]
          · simp only [List.take_succ_cons, List.take_zero, List.flatten_cons,
              List.flatten_nil, List.append_nil]
            omega

/-- EOF characterisation: the upstream closing before any terminator, with the
accumulation within the cap, is the `UnexpectedEof` failure. -/
theorem rrh_eof :
    ∀ (chunks : Chunks) (buffer : Bytes), (∀ c ∈ chunks, c ≠ []) →
      findSeq crlf2 (buffer ++ chunks.flatten) = none →
      (buffer ++ chunks.flatten).length ≤ 32768 →
      read_response_head chunks buffer = .error (.unexpectedEof "upstream closed") := by
  intro chunks
  induction chunks with
  | nil => intro buffer _ _ _; rfl
  | cons c rest ih =>
    intro buffer hne hfind hlen
    have hc : c ≠ [] := hne c (List.mem_cons_self ..)
    rw [List.flatten_cons, ← List.append_assoc] at hfind hlen
    have hfind' : findSeq crlf2 (buffer ++ c) = none := findSeq_append_none hfind
    have hlen' : (buffer ++ c).length ≤ 32768 := by
      rw [List.length_append] at hlen ⊢
      rw [List.length_append] at hlen
      omega
    rw [rrh_step_cont hc hlen' hfind' rest]
    exact ih (buffer ++ c) (fun c2 hc2 => hne c2 (List.mem_cons_of_mem _ hc2)) hfind hlen

/-- Over-cap characterisation: when no terminator ever occurs and the stream
pushes the accumulated buffer beyond 32768 bytes, the read fails with
`header too large`. -/
theorem rrh_too_large :
    ∀ (chunks : Chunks) (buffer : Bytes), (∀ c ∈ chunks, c ≠ []) →
      buffer.length ≤ 32768 →
      findSeq crlf2 (buffer ++ chunks.flatten) = none →
      (buffer ++ chunks.flatten).length > 32768 →
      read_response_head chunks buffer = .error (.invalidData "header too large") := by
  intro chunks
  induction chunks with
  | nil =>
    intro buffer _ hb _ hlen
    rw [List.flatten_nil, List.append_nil] at hlen
    omega
  | cons c rest ih =>
    intro buffer hne hb hfind hlen
    have hc : c ≠ [] := hne c (List.mem_cons_self ..)
    rw [List.flatten_cons, ← List.append_assoc] at hfind hlen
    by_cases hlen' : (buffer ++ c).length > 32768
    · exact rrh_step_large hc hlen' rest
    · have hfind' : findSeq crlf2 (buffer ++ c) = none := findSeq_append_none hfind
      rw [rrh_step_cont hc (by omega) hfind' rest]
      exact ih (buffer ++ c) (fun c2 hc2 => hne c2 (List.mem_cons_of_mem _ hc2))
        (by omega) hfind hlen

/-- One full 4096-byte read of filler. -/
def aChunk : Bytes := List.replicate 4096 'a'

/-- A read whose first four bytes complete the header terminator, followed by
body bytes in the same read. -/
def termChunk : Bytes := '\r' :: '\n' :: '\r' :: '\n' :: List.replicate 4092 'b'

/-- An upstream whose header ends at byte 30004 (within the 32 KiB cap) but
whose terminator-carrying read pushes the accumulated buffer to 34096 bytes. -/
def chunksCE : Chunks := List.replicate 7 aChunk ++ [List.replicate 1328 'a', termChunk]

theorem replicate_ne_nil {n : Nat} (h : n ≠ 0) (c : Char) : List.replicate n c ≠ [] := by
  intro he
  have h2 := congrArg List.length he
  rw [List.length_replicate] at h2
  exact h (by simpa using h2)

theorem termChunk_length : termChunk.length = 4096 := by
  unfold termChunk
  rw [List.length_cons, List.length_cons, List.length_cons, List.length_cons,
    List.length_replicate]

theorem flatten_replicate_aChunk :
    ∀ k, (List.replicate k aChunk).flatten = List.replicate (4096 * k) 'a' := by
  intro k
  induction k with
  | zero =>
    rw [List.replicate_zero, List.flatten_nil, Nat.mul_zero, List.replicate_zero]
  | succ m ih =>
    rw [List.replicate_succ, List.flatten_cons, ih]
    show aChunk ++ List.replicate (4096 * m) 'a' = _
    unfold aChunk
    rw [← List.replicate_add]
    rw [show 4096 + 4096 * m = 4096 * (m + 1) by ring]

theorem findSeq_crlf2_replicate (n : Nat) :
    findSeq crlf2 (List.replicate n 'a') = none := by
  show findSeq ('\r' :: ['\n', '\r', '\n']) (List.replicate n 'a') = none
  have h := findSeq_head_append '\r' ['\n', '\r', '\n'] (List.replicate n 'a') []
    (fun c hc => by rw [List.eq_of_mem_replicate hc]; decide)
  rw [List.append_nil] at h
  rw [h]
  rfl

theorem rrh_skip :
    ∀ (k n : Nat) (rest : Chunks), n + 4096 * k ≤ 32768 →
      read_response_head (List.replicate k aChunk ++ rest) (List.replicate n 'a')
        = read_response_head rest (List.replicate (n + 4096 * k) 'a') := by
  intro k
  induction k with
  | zero =>
    intro n rest _
    simp
  | succ m ih =>
    intro n rest hle
    rw [List.replicate_succ, List.cons_append]
    rw [rrh_step_cont (c := aChunk) (by unfold aChunk; exact replicate_ne_nil (by omega) 'a')
      (by
        unfold aChunk
        rw [← List.replicate_add]
        rw [List.length_replicate]
        omega)
      (by
        unfold aChunk
        rw [← List.replicate_add]
        exact findSeq_crlf2_replicate (n + 4096)) (List.replicate m aChunk ++ rest)]
    rw [show (List.replicate n 'a' ++ aChunk : Bytes) = List.replicate (n + 4096) 'a' from by
      unfold aChunk
      rw [← List.replicate_add]]
    rw [ih (n + 4096) rest (by omega)]
    rw [show n + 4096 + 4096 * m = n + 4096 * (m + 1) by ring]

/-- Counterexample to C9 as stated: the response head fits the 32 KiB cap
(the terminator ends at byte 30004), yet `read_response_head` fails with the
header-too-large error, because the cap is checked against the accumulated
buffer — header plus body bytes of the same read — before the terminator
scan. -/
theorem claim_C9_counterexample :
    read_response_head chunksCE [] = .error (.invalidData "header too large") ∧
    find_header_end chunksCE.flatten = some 30004 ∧ (30004 : Nat) ≤ 32768 := by
  refine ⟨?_, ?_, by omega⟩
  · unfold chunksCE
    have h1 := rrh_skip 7 0 [List.replicate 1328 'a', termChunk] (by omega)
    rw [show (List.replicate 0 'a' : Bytes) = [] from rfl] at h1
    rw [h1]
    rw [show (0 + 4096 * 7) = 28672 by norm_num]
    rw [rrh_step_cont (c := List.replicate 1328 'a')
      (replicate_ne_nil (by omega) 'a')
      (by
        rw [← List.replicate_add]
        rw [List.length_replicate]
        omega)
      (by
        rw [← List.replicate_add]
        exact findSeq_crlf2_replicate 30000) [termChunk]]
    rw [show (List.replicate 28672 'a' ++ List.replicate 1328 'a' : Bytes)
        = List.replicate 30000 'a' from by rw [← List.replicate_add]]
    exact rrh_step_large (by unfold termChunk; exact List.cons_ne_nil _ _)
      (by
        rw [List.length_append, List.length_replicate, termChunk_length]
        omega) []
  · have hflat : chunksCE.flatten = List.replicate 30000 'a' ++ termChunk := by
      unfold chunksCE
      rw [List.flatten_append, flatten_replicate_aChunk]
      rw [show ([List.replicate 1328 'a', termChunk] : Chunks).flatten
          = List.replicate 1328 'a' ++ termChunk from by
        rw [List.flatten_cons, List.flatten_cons, List.flatten_nil, List.append_nil]]
      rw [← List.append_assoc, ← List.replicate_add]
    rw [hflat]
    unfold find_header_end
    have h := findSeq_head_append '\r' ['\n', '\r', '\n'] (List.replicate 30000 'a')
      termChunk (fun c hc => by rw [List.eq_of_mem_replicate hc]; decide)
    show (findSeq ('\r' :: ['\n', '\r', '\n'])
      (List.replicate 30000 'a' ++ termChunk)).map (· + 4) = some 30004
    rw [h]
    rw [show findSeq ('\r' :: ['\n', '\r', '\n']) termChunk = some 0 from by
      unfold termChunk
      show (if List.isPrefixOf ('\r' :: ['\n', '\r', '\n'])
          ('\r' :: '\n' :: '\r' :: '\n' :: List.replicate 4092 'b') then some 0
        else (findSeq ('\r' :: ['\n', '\r', '\n'])
          ('\n' :: '\r' :: '\n' :: List.replicate 4092 'b')).map (· + 1)) = some 0
      rw [if_pos (by
        rw [List.isPrefixOf_iff_prefix]
        exact ⟨List.replicate 4092 'b', rfl⟩)]]
    simp only [Option.map_some', List.length_replicate]

/-- C9 (amended): `read_response_head` accumulates reads until the blank line
`\r\n\r\n`. On success the header is the accumulated bytes up to and including
the terminator, `body_prefix` is whatever was read past it in the same reads,
the info is parsed from that header, and the accumulated buffer stayed within
32768 bytes. If the upstream closes before any terminator appears the result is
the UnexpectedEof "upstream closed" error, and if the accumulated buffer —
header plus any body bytes read in the same chunk — exceeds 32768 bytes before
a terminator has appeared the result is the InvalidData "header too large"
error. -/
theorem claim_C9_read_response_head :
    (∀ (chunks : Chunks) (h : ResponseHead),
      read_response_head chunks [] = .ok h →
      ∃ k e, findSeq crlf2 (chunks.take k).flatten = some e ∧
        h.header = ((chunks.take k).flatten).take (e + 4) ∧
        h.body_prefix = ((chunks.take k).flatten).drop (e + 4) ∧
        h.info = parse_response_info h.header ∧
        ((chunks.take k).flatten).length ≤ 32768) ∧
    (∀ (chunks : Chunks), (∀ c ∈ chunks, c ≠ []) →
      findSeq crlf2 chunks.flatten = none →
      chunks.flatten.length ≤ 32768 →
      read_response_head chunks [] = .error (.unexpectedEof "upstream closed")) ∧
    (∀ (chunks : Chunks), (∀ c ∈ chunks, c ≠ []) →
      findSeq crlf2 chunks.flatten = none →
      chunks.flatten.length > 32768 →
      read_response_head chunks [] = .error (.invalidData "header too large")) := by
  refine ⟨?_, ?_, ?_⟩
  · intro chunks h hrun
    have hok := rrh_ok chunks [] h hrun
    simpa using hok
  · intro chunks hne hfind hlen
    exact rrh_eof chunks [] hne (by simpa using hfind) (by simpa using hlen)
  · intro chunks hne hfind hlen
    exact rrh_too_large chunks [] hne (by simp) (by simpa using hfind)
      (by simpa using hlen)

/-- Concrete instance of the C9 amendment: a stream that closes before any
blank line yields the UnexpectedEof error. -/
theorem claim_C9_witness :
    read_response_head ["HTTP/1.1 200 OK".toList] []
      = .error (.unexpectedEof "upstream closed") :=
  claim_C9_read_response_head.2.1 ["HTTP/1.1 200 OK".toList]
    (by decide) (by decide) (by decide)

end MiniNginx
